import Mathlib

/-!
# Verification of the rss bucket shuffle repartitioner

Shallow embedding of
`native-engine/datafusion-ext-plans/src/shuffle/rss_bucket_repartitioner.rs`.

Modelling conventions:
* A row is an abstract value of type `α`; a columnar batch is modelled by the
  list of its rows (the per-column builders of the Rust code always move whole
  rows together, so the column structure is irrelevant to the properties
  verified here).
* The external shuffle sink (`BlazeRssPartitionWriterBase.write`, reached via
  `write_batch_to_rss`) is modelled by the list of writes an operation emits,
  each write being a pair `(partition_id, rows of the serialized batch)`.
* Machine integers (`usize`) are modelled by `Nat`; `saturating_sub` is `Nat`
  subtraction, which saturates at `0`.
* A Rust panic (index out of bounds, division by zero) is modelled by an
  operation returning `none`.
* `input.get_array_memory_size()` is an externally computed size estimate and
  is passed as an explicit `Nat` argument `memIncrease`.
* `evaluate_hashes` / `evaluate_partition_ids` live outside the analysed file;
  the per-row partition ids are therefore passed as an explicit list `pids`.
-/

namespace RssBucket

/-- Model of `PartitionBuffer` (rss_bucket_repartitioner.rs, lines 227-233):
`active` holds the rows currently in the column builders, `numActiveRows`
mirrors the separately maintained `num_active_rows` field, `rssBatchSize` is
the flush threshold.  The `schema` and `rss_partition_writer` handle fields
carry no state relevant to the verified properties and are omitted. -/
structure PartitionBuffer (α : Type*) where
  active : List α
  numActiveRows : Nat
  rssBatchSize : Nat
  deriving Repr, DecidableEq

/-- Model of `PartitionBuffer::new` (lines 236-250):
`rss_batch_size = batch_size / (batch_size as f64 + 1.0).log2() as usize`.
For an integer argument `b+1 < 2^53` the `f64` computation
`((b+1) as f64).log2() as usize` is exactly `⌊log₂ (b+1)⌋ = Nat.log2 (b+1)`.
When that divisor is `0` (i.e. `batchSize = 0`) the Rust division panics,
modelled by `none`. -/
def PartitionBuffer.new (α : Type*) (batchSize : Nat) : Option (PartitionBuffer α) :=
  let d := Nat.log2 (batchSize + 1)
  if d = 0 then none
  else some { active := [], numActiveRows := 0, rssBatchSize := batchSize / d }

/-- Model of `PartitionBuffer::flush_to_rss` (lines 296-306): no-op when
`num_active_rows == 0`; otherwise takes the builders, resets the row count and
emits one sink write carrying the buffered rows. -/
def PartitionBuffer.flush_to_rss (buf : PartitionBuffer α) (partition_id : Nat) :
    PartitionBuffer α × List (Nat × List α) :=
  if buf.numActiveRows = 0 then (buf, [])
  else ({ buf with active := [], numActiveRows := 0 }, [(partition_id, buf.active)])

/-- Model of `PartitionBuffer::append_batch` (lines 291-293): serializes the
batch and hands it directly to the sink via `write_batch_to_rss`, leaving the
buffer untouched. -/
def PartitionBuffer.append_batch (buf : PartitionBuffer α) (batch : List α)
    (partition_id : Nat) : PartitionBuffer α × List (Nat × List α) :=
  (buf, [(partition_id, batch)])

/-- One iteration of the `while start < indices.len()` loop of
`PartitionBuffer::append_rows` (lines 260-284), with the not-yet-processed
suffix of `indices` passed explicitly.  `r` maps a row index to the row of the
input columns (`builder_extend` copies row `i` of every column).  The lazy
builder initialization of lines 262-264 creates empty builders and is a no-op
in the row-list model.  `fuel` bounds the number of iterations; `none` models
a loop that does not finish within `fuel` iterations. -/
def appendRowsGo (r : Nat → α) (partition_id : Nat) :
    Nat → PartitionBuffer α → List Nat → List (Nat × List α) →
    Option (PartitionBuffer α × List (Nat × List α))
  | 0, _, _, _ => none
  | _ + 1, buf, [], ws => some (buf, ws)
  | fuel + 1, buf, inds@(_ :: _), ws =>
    let extendLen := min inds.length (buf.rssBatchSize - buf.numActiveRows)
    let buf1 : PartitionBuffer α :=
      { buf with
        active := buf.active ++ (inds.take extendLen).map r
        numActiveRows := buf.numActiveRows + extendLen }
    if buf1.rssBatchSize ≤ buf1.numActiveRows then
      let fl := buf1.flush_to_rss partition_id
      appendRowsGo r partition_id fuel fl.1 (inds.drop extendLen) (ws ++ fl.2)
    else
      appendRowsGo r partition_id fuel buf1 (inds.drop extendLen) ws

/-- Model of `PartitionBuffer::append_rows` (lines 252-286).  The fuel
`indices.length + 2` is enough for the loop to finish whenever
`rss_batch_size ≥ 1` (proved below); with `rss_batch_size = 0` the Rust loop
never terminates on non-empty input and the model returns `none`. -/
def PartitionBuffer.append_rows (buf : PartitionBuffer α) (r : Nat → α)
    (indices : List Nat) (partition_id : Nat) :
    Option (PartitionBuffer α × List (Nat × List α)) :=
  appendRowsGo r partition_id (indices.length + 2) buf indices []

/-- The `partition_counters` pass of `insert_batch` (lines 104-108): a vector
of `N` zeros with `partition_counters[partition_id] += 1` for every row.  (In
Rust an id `≥ N` would panic; all ids produced by `evaluate_partition_ids` are
`< N`, and every theorem below assumes that bound.) -/
def buildCounters (N : Nat) (pids : List Nat) : List Nat :=
  pids.foldl (fun cs p => cs.set p (cs.getD p 0 + 1)) (List.replicate N 0)

/-- The in-place prefix-sum pass of `insert_batch` (lines 110-116), with the
running accumulator `accum` made explicit. -/
def prefixAccum (accum : Nat) : List Nat → List Nat
  | [] => []
  | v :: vs => (accum + v) :: prefixAccum (accum + v) vs

/-- `partition_ends` after the accumulation loop (lines 111-116). -/
def buildEnds (counters : List Nat) : List Nat := prefixAccum 0 counters

/-- One iteration of the reverse fill loop (lines 120-124), processing row
`index`: decrement `partition_ends[pids[index]]` and store `index` there. -/
def fillStep (pids : List Nat) (st : List Nat × List Nat) (index : Nat) :
    List Nat × List Nat :=
  let p := pids.getD index 0
  let e := st.1.getD p 0 - 1
  (st.1.set p e, st.2.set e index)

/-- The loop `for (index, &partition_id) in partition_ids.iter().enumerate().rev()`
(lines 120-124): `revFillLoop pids k st` processes indices `k-1, k-2, …, 0`
in this order, so `revFillLoop pids pids.length` is the whole loop. -/
def revFillLoop (pids : List Nat) : Nat → List Nat × List Nat → List Nat × List Nat
  | 0, st => st
  | k + 1, st => revFillLoop pids k (fillStep pids st k)

/-- Lines 104-128 of `insert_batch`: the counting pass, the prefix-sum pass
and the reverse fill together, returning `shuffled_partition_ids` and
`partition_starts` (the ends vector left by the fill, with `num_rows`
pushed). -/
def shuffledAndStarts (N : Nat) (pids : List Nat) : List Nat × List Nat :=
  let ends := buildEnds (buildCounters N pids)
  let st := revFillLoop pids pids.length (ends, List.replicate pids.length 0)
  (st.2, st.1 ++ [pids.length])

/-- The per-run dispatch of `insert_batch` (lines 139-163): a run shorter than
`rss_batch_size` goes through `append_rows`; a longer run is materialised by
`arrow::compute::take` (whose result has rows `run.map r`) and goes through
`append_batch`. -/
def processRun (r : Nat → α) (buf : PartitionBuffer α) (run : List Nat)
    (partition_id : Nat) : Option (PartitionBuffer α × List (Nat × List α)) :=
  if run.length < buf.rssBatchSize then
    buf.append_rows r run partition_id
  else
    some (buf.append_batch (run.map r) partition_id)

/-- The body of the dispatch loop of `insert_batch` for one partition id `p`
(lines 130-165): skip an empty run `[start, end)`, otherwise process the run's
slice of `shuffled_partition_ids` against that partition's buffer.  A buffer
index out of range models the Rust panic. -/
def insertStep (r : Nat → α) (shuffled starts : List Nat)
    (acc : List (PartitionBuffer α) × List (Nat × List α)) (p : Nat) :
    Option (List (PartitionBuffer α) × List (Nat × List α)) :=
  let s := starts.getD p 0
  let e := starts.getD (p + 1) 0
  if s < e then
    match acc.1.get? p with
    | none => none
    | some buf =>
      match processRun r buf ((shuffled.drop s).take (e - s)) p with
      | none => none
      | some (buf', ws) => some (acc.1.set p buf', acc.2 ++ ws)
  else some acc

/-- The dispatch loop of `insert_batch` (lines 130-165) over all partition
ids in increasing order. -/
def insertRuns (r : Nat → α) (shuffled starts : List Nat) (N : Nat)
    (bufs : List (PartitionBuffer α)) :
    Option (List (PartitionBuffer α) × List (Nat × List α)) :=
  (List.range N).foldlM (insertStep r shuffled starts) (bufs, [])

/-- Model of the `RssBucketShuffleRepartitioner` state (lines 43-50): the `N`
partition buffers, the configured partition count, and the accounted memory
usage `metrics.mem_used()`.  The `id`, `runtime` and `partitioning` handles
carry no state relevant to the verified properties. -/
structure RepState (α : Type*) where
  buffers : List (PartitionBuffer α)
  numOutputPartitions : Nat
  memUsed : Nat
  deriving Repr, DecidableEq

/-- Model of `RssBucketShuffleRepartitioner::new` (lines 52-85): builds one
`PartitionBuffer` per output partition (each construction can panic when
`batchSize = 0`, but with `N = 0` partitions none is ever constructed) and
starts with zero accounted memory.  Construction itself has no failure path
beyond those panics: it performs no validation of `N`. -/
def RepState.new (α : Type*) (N batchSize : Nat) : Option (RepState α) :=
  ((List.range N).mapM (fun _ => PartitionBuffer.new α batchSize)).map
    fun bufs => { buffers := bufs, numOutputPartitions := N, memUsed := 0 }

/-- Model of `RssBucketShuffleRepartitioner::insert_batch` (lines 93-167).
`rows` are the rows of the input batch, `pids` the per-row partition ids
computed by `evaluate_hashes`/`evaluate_partition_ids` (external to this
file), `memIncrease` the value of `input.get_array_memory_size()`.  The
`grow`/`try_grow(0)` arbiter calls (lines 96-97) only update external
accounting; a reactive spill triggered through them is modelled as a separate
`spill` step between inserts. -/
def RepState.insert_batch [Inhabited α] (st : RepState α) (rows : List α)
    (pids : List Nat) (memIncrease : Nat) :
    Option (RepState α × List (Nat × List α)) :=
  let st1 : RepState α := { st with memUsed := st.memUsed + memIncrease }
  let ss := shuffledAndStarts st.numOutputPartitions pids
  match insertRuns (fun i => rows.getD i default) ss.1 ss.2
      st.numOutputPartitions st1.buffers with
  | none => none
  | some (bufs, ws) => some ({ st1 with buffers := bufs }, ws)

/-- One step of the flush loop shared by `shuffle_write` (lines 169-175) and
`spill` (lines 205-214): `buffered_partitions[i].flush_to_rss(i)`. -/
def flushStep (acc : List (PartitionBuffer α) × List (Nat × List α)) (i : Nat) :
    Option (List (PartitionBuffer α) × List (Nat × List α)) :=
  match acc.1.get? i with
  | none => none
  | some buf =>
    let fl := buf.flush_to_rss i
    some (acc.1.set i fl.1, acc.2 ++ fl.2)

/-- The flush loop shared by `shuffle_write` and `spill`:
`for i in 0..num_output_partitions { buffered_partitions[i].flush_to_rss(i) }`. -/
def flushAll (bufs : List (PartitionBuffer α)) (N : Nat) :
    Option (List (PartitionBuffer α) × List (Nat × List α)) :=
  (List.range N).foldlM flushStep (bufs, [])

/-- Model of `RssBucketShuffleRepartitioner::shuffle_write` (lines 169-175):
flush every buffer in index order.  Memory accounting is not touched. -/
def RepState.shuffle_write (st : RepState α) :
    Option (RepState α × List (Nat × List α)) :=
  (flushAll st.buffers st.numOutputPartitions).map
    fun fl => ({ st with buffers := fl.1 }, fl.2)

/-- Model of `MemoryConsumer::spill` (lines 205-214): with an empty buffer
array return `0` immediately; otherwise flush every buffer in index order,
then `mem_used().set(0)`, returning the previously accounted value. -/
def RepState.spill (st : RepState α) :
    Option (Nat × RepState α × List (Nat × List α)) :=
  if st.buffers.length = 0 then some (0, st, [])
  else
    (flushAll st.buffers st.numOutputPartitions).map
      fun fl => (st.memUsed, { st with buffers := fl.1, memUsed := 0 }, fl.2)

/-- `MemoryConsumer::mem_used` (lines 216-218). -/
def RepState.mem_used (st : RepState α) : Nat := st.memUsed

/-- One element of an inserted batch sequence: the batch's rows, their
partition ids, and the batch's externally estimated memory size. -/
structure InsertInput (α : Type*) where
  rows : List α
  pids : List Nat
  memIncrease : Nat

/-- A sequence of `insert_batch` calls, accumulating the sink writes. -/
def runInserts [Inhabited α] (st : RepState α) :
    List (InsertInput α) → Option (RepState α × List (Nat × List α))
  | [] => some (st, [])
  | b :: bs =>
    match st.insert_batch b.rows b.pids b.memIncrease with
    | none => none
    | some (st', ws) =>
      match runInserts st' bs with
      | none => none
      | some (st'', ws') => some (st'', ws ++ ws')

-- scenario from the spec: N = 4, 8 rows with bucket ids [0,1,2,3,0,1,2,3]
/-- Number of rows of `pids` destined for bucket `p`. -/
def cntTo (pids : List Nat) (p : Nat) : Nat := pids.countP (fun q => q == p)

/-- Start offset of bucket `p`: rows destined for buckets `< p`. -/
def startOf (pids : List Nat) (p : Nat) : Nat := ∑ q ∈ Finset.range p, cntTo pids q

/-- The row indices `≥ k` destined for bucket `p`, in increasing order. -/
def bucketRun (pids : List Nat) (k p : Nat) : List Nat :=
  (List.range' k (pids.length - k)).filter (fun i => pids.getD i 0 == p)

/-- Invariant of the reverse fill loop after the rows with index `≥ k` have
been processed: every `partition_ends` entry has moved down to its bucket's
start offset plus the bucket's count among the first `k` rows, and for every
bucket the tail of its destination region already holds exactly the indices
`≥ k` of that bucket, in increasing order. -/
structure FillInv (N : Nat) (pids : List Nat) (k : Nat)
    (st : List Nat × List Nat) : Prop where
  ends_len : st.1.length = N
  shuf_len : st.2.length = pids.length
  ends_val : ∀ p, p < N →
    st.1.getD p 0 = startOf pids p + (pids.take k).countP (fun q => q == p)
  filled : ∀ p, p < N → ∀ d, d < (bucketRun pids k p).length →
    st.2.getD (startOf pids p + (pids.take k).countP (fun q => q == p) + d) 0
      = (bucketRun pids k p).getD d 0

/-- The rows carried by a list of sink writes, as a multiset. -/
def writesRows (ws : List (Nat × List α)) : Multiset α :=
  (ws.map (fun w => ((w.2 : List α) : Multiset α))).sum

/-- The rows buffered across a list of partition buffers, as a multiset. -/
def bufsRows (bufs : List (PartitionBuffer α)) : Multiset α :=
  (bufs.map (fun b => ((b.active : List α) : Multiset α))).sum

/-- A buffer after its contents have been flushed. -/
def emptied (b : PartitionBuffer α) : PartitionBuffer α :=
  { b with active := [], numActiveRows := 0 }

/-- The rows selected by the run of partition `p` (empty run: none). -/
def runSel (r : Nat → α) (shuffled starts : List Nat) (p : Nat) : Multiset α :=
  if starts.getD p 0 < starts.getD (p + 1) 0 then
    ((((shuffled.drop (starts.getD p 0)).take
        (starts.getD (p + 1) 0 - starts.getD p 0)).map r : List α) : Multiset α)
  else 0

/-! ## Lemmas and claim theorems -/

theorem cntTo_nil (p : Nat) : cntTo [] p = 0 := rfl

theorem cntTo_cons (x : Nat) (l : List Nat) (p : Nat) :
    cntTo (x :: l) p = cntTo l p + (if x = p then 1 else 0) := by
  simp [cntTo, List.countP_cons]

theorem startOf_zero (pids : List Nat) : startOf pids 0 = 0 := by
  simp [startOf]

theorem startOf_succ (pids : List Nat) (p : Nat) :
    startOf pids (p + 1) = startOf pids p + cntTo pids p := by
  simp [startOf, Finset.sum_range_succ]

theorem startOf_mono (pids : List Nat) {p q : Nat} (h : p ≤ q) :
    startOf pids p ≤ startOf pids q := by
  unfold startOf
  exact Finset.sum_le_sum_of_subset (Finset.range_subset.mpr h)

/-- When every partition id is `< N`, the bucket counts sum to the row count. -/
theorem startOf_all {N : Nat} {pids : List Nat} (hpids : ∀ i ∈ pids, i < N) :
    startOf pids N = pids.length := by
  induction pids with
  | nil => simp [startOf, cntTo]
  | cons x l ih =>
    have hx : x < N := hpids x (by simp)
    have hl : ∀ i ∈ l, i < N := fun i hi => hpids i (by simp [hi])
    unfold startOf
    calc ∑ q ∈ Finset.range N, cntTo (x :: l) q
        = ∑ q ∈ Finset.range N, (cntTo l q + if x = q then 1 else 0) := by
          refine Finset.sum_congr rfl fun q _ => ?_
          exact cntTo_cons x l q
      _ = (∑ q ∈ Finset.range N, cntTo l q)
            + ∑ q ∈ Finset.range N, (if x = q then 1 else 0) := by
          rw [Finset.sum_add_distrib]
      _ = l.length + 1 := by
          rw [Finset.sum_ite_eq (Finset.range N) x (fun _ => 1),
            if_pos (Finset.mem_range.mpr hx)]
          have := ih hl
          simp only [startOf] at this
          rw [this]
      _ = (x :: l).length := by simp

theorem countersAux_length (pids : List Nat) (cs : List Nat) :
    (pids.foldl (fun cs p => cs.set p (cs.getD p 0 + 1)) cs).length = cs.length := by
  induction pids generalizing cs with
  | nil => rfl
  | cons x l ih =>
    rw [List.foldl_cons, ih]
    simp

theorem countersAux_getD (pids : List Nat) (cs : List Nat) (p : Nat)
    (hp : p < cs.length) :
    (pids.foldl (fun cs p => cs.set p (cs.getD p 0 + 1)) cs).getD p 0
      = cs.getD p 0 + cntTo pids p := by
  induction pids generalizing cs with
  | nil => simp [cntTo]
  | cons x l ih =>
    have hlen : p < (cs.set x (cs.getD x 0 + 1)).length := by
      simpa using hp
    rw [List.foldl_cons, ih _ hlen, cntTo_cons]
    by_cases hxp : x = p
    · subst hxp
      have : (cs.set x (cs.getD x 0 + 1)).getD x 0 = cs.getD x 0 + 1 := by
        simp [List.getD, List.getElem?_set_self', hp]
      rw [this, if_pos rfl]
      omega
    · have : (cs.set x (cs.getD x 0 + 1)).getD p 0 = cs.getD p 0 := by
        simp [List.getD, List.getElem?_set_ne hxp]
      rw [this, if_neg hxp]
      omega

theorem buildCounters_length (N : Nat) (pids : List Nat) :
    (buildCounters N pids).length = N := by
  unfold buildCounters
  rw [countersAux_length]
  simp

theorem buildCounters_getD {N : Nat} (pids : List Nat) {p : Nat} (hp : p < N) :
    (buildCounters N pids).getD p 0 = cntTo pids p := by
  unfold buildCounters
  rw [countersAux_getD pids _ p (by simpa using hp)]
  simp [List.getD, List.getElem?_replicate, hp]

theorem prefixAccum_length (a : Nat) (cs : List Nat) :
    (prefixAccum a cs).length = cs.length := by
  induction cs generalizing a with
  | nil => rfl
  | cons v vs ih => simp [prefixAccum, ih]

theorem prefixAccum_getD (a : Nat) (cs : List Nat) (p : Nat) (hp : p < cs.length) :
    (prefixAccum a cs).getD p 0 = a + (cs.take (p + 1)).sum := by
  induction cs generalizing a p with
  | nil => simp at hp
  | cons v vs ih =>
    cases p with
    | zero => simp [prefixAccum, List.getD]
    | succ p' =>
      have hp' : p' < vs.length := by simpa using hp
      simp only [prefixAccum, List.getD_cons_succ, List.take_succ_cons, List.sum_cons]
      rw [ih (a + v) p' hp']
      omega

theorem buildEnds_getD {N : Nat} (pids : List Nat) {p : Nat} (hp : p < N) :
    (buildEnds (buildCounters N pids)).getD p 0 = startOf pids (p + 1) := by
  unfold buildEnds
  rw [prefixAccum_getD 0 _ p (by simp [buildCounters_length, hp])]
  have htake : ∀ q ≤ N, ((buildCounters N pids).take q).sum = startOf pids q := by
    intro q
    induction q with
    | zero => simp [startOf_zero]
    | succ q' ih =>
      intro hq
      have hq' : q' < (buildCounters N pids).length := by
        simp [buildCounters_length]; omega
      rw [← List.take_concat_get' _ _ hq', List.sum_append, ih (by omega),
        startOf_succ]
      have : (buildCounters N pids)[q'] = cntTo pids q' := by
        rw [← List.getD_eq_getElem _ 0 hq']
        exact buildCounters_getD pids (by simpa [buildCounters_length] using hq')
      simp [this]
  simpa using htake (p + 1) (by omega)

theorem getD_set_self {l : List Nat} {i : Nat} (h : i < l.length) (a : Nat) :
    (l.set i a).getD i 0 = a := by
  simp [List.getD, List.getElem?_set_self', h]

theorem getD_set_ne {l : List Nat} {i j : Nat} (h : i ≠ j) (a : Nat) :
    (l.set i a).getD j 0 = l.getD j 0 := by
  simp [List.getD, List.getElem?_set_ne h]

theorem bucketRun_stop {pids : List Nat} {k : Nat} (h : pids.length ≤ k) (p : Nat) :
    bucketRun pids k p = [] := by
  simp [bucketRun, Nat.sub_eq_zero_of_le h]

theorem bucketRun_cons {pids : List Nat} {k : Nat} (h : k < pids.length) (p : Nat) :
    bucketRun pids k p =
      (if pids.getD k 0 = p then [k] else []) ++ bucketRun pids (k + 1) p := by
  unfold bucketRun
  have hm : pids.length - k = (pids.length - (k + 1)) + 1 := by omega
  rw [hm, List.range'_succ]
  rw [List.filter_cons]
  split
  · rename_i hb
    rw [if_pos (by simpa using hb)]
    rfl
  · rename_i hb
    rw [if_neg (by simpa using hb)]
    rfl

theorem countP_take_succ {pids : List Nat} {k : Nat} (h : k < pids.length) (p : Nat) :
    (pids.take (k + 1)).countP (fun q => q == p)
      = (pids.take k).countP (fun q => q == p) + (if pids[k] = p then 1 else 0) := by
  rw [← List.take_concat_get' _ _ h, List.countP_append]
  by_cases hp : pids[k] = p
  · simp [hp]
  · simp [hp]

theorem cntTo_take_drop (pids : List Nat) (k p : Nat) :
    (pids.take k).countP (fun q => q == p) + (pids.drop k).countP (fun q => q == p)
      = cntTo pids p := by
  rw [← List.countP_append, List.take_append_drop]
  rfl

theorem bucketRun_length (pids : List Nat) (p : Nat) :
    ∀ m k, pids.length - k = m →
      (bucketRun pids k p).length = (pids.drop k).countP (fun q => q == p) := by
  intro m
  induction m with
  | zero =>
    intro k hk
    rw [bucketRun_stop (by omega), List.drop_eq_nil_of_le (by omega)]
    rfl
  | succ m' ih =>
    intro k hk
    have hklt : k < pids.length := by omega
    rw [bucketRun_cons hklt, List.drop_eq_getElem_cons hklt, List.countP_cons,
      List.length_append, ih (k + 1) (by omega)]
    by_cases hp : pids[k] = p
    · simp only [List.getD_eq_getElem _ _ hklt, hp, if_pos, beq_self_eq_true]
      simp [Nat.add_comm]
    · have hb : ¬((pids[k] == p) = true) := by simp [hp]
      simp only [List.getD_eq_getElem _ _ hklt, if_neg hp, hb, if_false]
      simp

theorem fillInv_init {N : Nat} {pids : List Nat} :
    FillInv N pids pids.length
      (buildEnds (buildCounters N pids), List.replicate pids.length 0) := by
  refine ⟨?_, ?_, ?_, ?_⟩
  · simp [buildEnds, prefixAccum_length, buildCounters_length]
  · simp
  · intro p hp
    rw [buildEnds_getD pids hp, startOf_succ, List.take_of_length_le (le_refl _)]
    rfl
  · intro p hp d hd
    rw [bucketRun_stop (le_refl _)] at hd
    simp at hd

theorem fillInv_step {N : Nat} {pids : List Nat} {k : Nat} {st : List Nat × List Nat}
    (hpids : ∀ i ∈ pids, i < N) (hk : k < pids.length)
    (h : FillInv N pids (k + 1) st) : FillInv N pids k (fillStep pids st k) := by
  obtain ⟨hel, hsl, hev, hfill⟩ := h
  have hgetD : pids.getD k 0 = pids[k] := List.getD_eq_getElem _ _ hk
  have hpklt : pids[k] < N := hpids _ (List.getElem_mem hk)
  -- count bookkeeping
  have hcount : (pids.take (k + 1)).countP (fun q => q == pids[k])
      = (pids.take k).countP (fun q => q == pids[k]) + 1 := by
    rw [countP_take_succ hk, if_pos rfl]
  have hcount' : ∀ p, pids[k] ≠ p →
      (pids.take (k + 1)).countP (fun q => q == p)
        = (pids.take k).countP (fun q => q == p) := by
    intro p hne
    rw [countP_take_succ hk, if_neg hne]
    omega
  -- the written position
  have hdropcnt : 1 ≤ (pids.drop k).countP (fun q => q == pids[k]) := by
    rw [List.drop_eq_getElem_cons hk, List.countP_cons]
    simp
  have hcb_lt : (pids.take k).countP (fun q => q == pids[k]) < cntTo pids pids[k] := by
    have := cntTo_take_drop pids k pids[k]
    omega
  have he_lt : startOf pids pids[k] + (pids.take k).countP (fun q => q == pids[k])
      < pids.length := by
    have h1 : startOf pids (pids[k] + 1) = startOf pids pids[k] + cntTo pids pids[k] :=
      startOf_succ pids pids[k]
    have h2 : startOf pids (pids[k] + 1) ≤ startOf pids N := startOf_mono pids hpklt
    have h3 : startOf pids N = pids.length := startOf_all hpids
    omega
  have hE : st.1.getD pids[k] 0 - 1
      = startOf pids pids[k] + (pids.take k).countP (fun q => q == pids[k]) := by
    have := hev _ hpklt
    omega
  simp only [fillStep, hgetD]
  refine ⟨by simpa using hel, by simpa using hsl, ?_, ?_⟩
  · intro p hp
    by_cases hpe : pids[k] = p
    · subst hpe
      rw [getD_set_self (by rw [hel]; exact hpklt), hE]
    · rw [getD_set_ne hpe, hev p hp, hcount' p hpe]
  · intro p hp d hd
    rw [hE]
    by_cases hpe : pids[k] = p
    · -- the bucket of the row just written
      subst hpe
      have hrun : bucketRun pids k pids[k] = k :: bucketRun pids (k + 1) pids[k] := by
        rw [bucketRun_cons hk, hgetD, if_pos rfl]
        rfl
      cases d with
      | zero =>
        rw [Nat.add_zero,
          getD_set_self (by rw [hsl]; exact he_lt) k, hrun]
        rfl
      | succ d' =>
        have hd' : d' < (bucketRun pids (k + 1) pids[k]).length := by
          rw [hrun] at hd
          simpa using hd
        have hne : startOf pids pids[k]
              + (pids.take k).countP (fun q => q == pids[k])
            ≠ startOf pids pids[k]
                + (pids.take k).countP (fun q => q == pids[k]) + (d' + 1) := by
          omega
        rw [getD_set_ne hne]
        have hpos : startOf pids pids[k]
              + (pids.take k).countP (fun q => q == pids[k]) + (d' + 1)
            = startOf pids pids[k]
              + (pids.take (k + 1)).countP (fun q => q == pids[k]) + d' := by
          omega
        rw [hpos, hfill _ hpklt d' hd', hrun]
        rfl
    · -- an untouched bucket: the written position lies in another region
      have hrun : bucketRun pids k p = bucketRun pids (k + 1) p := by
        rw [bucketRun_cons hk, hgetD, if_neg hpe]
        rfl
      have hlen_eq : (bucketRun pids k p).length
          = (pids.drop k).countP (fun q => q == p) :=
        bucketRun_length pids p _ k rfl
      have hd_lt : (pids.take k).countP (fun q => q == p) + d < cntTo pids p := by
        have := cntTo_take_drop pids k p
        omega
      have hne : startOf pids pids[k] + (pids.take k).countP (fun q => q == pids[k])
          ≠ startOf pids p + (pids.take k).countP (fun q => q == p) + d := by
        -- the regions [startOf q, startOf (q+1)) of different buckets are disjoint
        rcases Nat.lt_or_ge pids[k] p with hlt | hge
        · have h1 : startOf pids (pids[k] + 1) ≤ startOf pids p :=
            startOf_mono pids hlt
          have h2 : startOf pids (pids[k] + 1)
              = startOf pids pids[k] + cntTo pids pids[k] := startOf_succ pids pids[k]
          omega
        · have hlt' : p < pids[k] := by
            rcases Nat.lt_or_ge p pids[k] with h' | h'
            · exact h'
            · exact absurd (Nat.le_antisymm h' hge) hpe
          have h1 : startOf pids (p + 1) ≤ startOf pids pids[k] :=
            startOf_mono pids hlt'
          have h2 : startOf pids (p + 1) = startOf pids p + cntTo pids p :=
            startOf_succ pids p
          omega
      rw [getD_set_ne hne, ← hcount' p hpe, hfill p hp d (by rw [← hrun]; exact hd),
        hrun]

theorem fillInv_loop {N : Nat} {pids : List Nat}
    (hpids : ∀ i ∈ pids, i < N) :
    ∀ k (st : List Nat × List Nat), k ≤ pids.length → FillInv N pids k st →
      FillInv N pids 0 (revFillLoop pids k st) := by
  intro k
  induction k with
  | zero => intro st _ h; exact h
  | succ k' ih =>
    intro st hk h
    exact ih _ (by omega) (fillInv_step hpids (by omega) h)

theorem startOf_add_cnt_le {N : Nat} {pids : List Nat}
    (hpids : ∀ i ∈ pids, i < N) {p : Nat} (hp : p < N) :
    startOf pids p + cntTo pids p ≤ pids.length := by
  have h1 : startOf pids (p + 1) = startOf pids p + cntTo pids p := startOf_succ pids p
  have h2 : startOf pids (p + 1) ≤ startOf pids N := startOf_mono pids hp
  have h3 : startOf pids N = pids.length := startOf_all hpids
  omega

/-- Full characterization of lines 104-128: the scratch array has one entry
per row, the starts vector has `N+1` entries equal to the buckets' start
offsets (ending with the row count), and the slice of the scratch array
between consecutive offsets is exactly the increasing list of row indices of
that bucket. -/
theorem shuffledAndStarts_spec {N : Nat} {pids : List Nat}
    (hpids : ∀ i ∈ pids, i < N) :
    (shuffledAndStarts N pids).1.length = pids.length ∧
    (shuffledAndStarts N pids).2.length = N + 1 ∧
    (∀ p, p ≤ N → (shuffledAndStarts N pids).2.getD p 0 = startOf pids p) ∧
    (∀ p, p < N →
      ((shuffledAndStarts N pids).1.drop (startOf pids p)).take (cntTo pids p)
        = bucketRun pids 0 p) := by
  obtain ⟨hel, hsl, hev, hfill⟩ :
      FillInv N pids 0
        (revFillLoop pids pids.length
          (buildEnds (buildCounters N pids), List.replicate pids.length 0)) :=
    fillInv_loop hpids pids.length _ (le_refl _) fillInv_init
  set st := revFillLoop pids pids.length
      (buildEnds (buildCounters N pids), List.replicate pids.length 0) with hst
  have hdef : shuffledAndStarts N pids = (st.2, st.1 ++ [pids.length]) := rfl
  rw [hdef]
  refine ⟨hsl, by simp [hel], ?_, ?_⟩
  · intro p hp
    rcases Nat.lt_or_ge p N with hlt | hge
    · rw [List.getD_append _ _ _ _ (by rw [hel]; exact hlt), hev p hlt]
      simp
    · have hpN : p = N := by omega
      subst hpN
      have hplen : p < (st.1 ++ [pids.length]).length := by
        simp [hel]
      rw [List.getD_eq_getElem _ _ hplen,
        List.getElem_append_right (by rw [hel])]
      simp [hel, startOf_all hpids]
  · intro p hp
    show (st.2.drop (startOf pids p)).take (cntTo pids p) = bucketRun pids 0 p
    have hlen0 : (bucketRun pids 0 p).length = cntTo pids p := by
      rw [bucketRun_length pids p _ 0 rfl]
      simp [cntTo]
    have hle : startOf pids p + cntTo pids p ≤ pids.length :=
      startOf_add_cnt_le hpids hp
    apply List.ext_getElem
    · simp [hsl, hlen0]
      omega
    · intro d hd1 hd2
      have hd : d < cntTo pids p := by
        simpa [hlen0] using hd2
      have hpos_lt : startOf pids p + d < st.2.length := by
        rw [hsl]; omega
      have := hfill p hp d (by rw [hlen0]; exact hd)
      simp only [List.take_zero, List.countP_nil, Nat.add_zero] at this
      rw [List.getElem_take, List.getElem_drop]
      have hgd : st.2.getD (startOf pids p + d) 0 = st.2[startOf pids p + d] :=
        List.getD_eq_getElem _ _ hpos_lt
      have hgd2 : (bucketRun pids 0 p).getD d 0 = (bucketRun pids 0 p)[d] :=
        List.getD_eq_getElem _ _ (by rw [hlen0]; exact hd)
      rw [hgd, hgd2] at this
      exact this

/-- Summing the per-bucket index lists over all buckets recovers, as a
multiset, the candidate index list (each index lands in exactly one bucket). -/
theorem sum_filter_buckets {N : Nat} (pids : List Nat) (idxs : List Nat)
    (h : ∀ i ∈ idxs, pids.getD i 0 < N) :
    (∑ p ∈ Finset.range N,
        ((idxs.filter (fun i => pids.getD i 0 == p) : List Nat) : Multiset Nat))
      = (idxs : Multiset Nat) := by
  induction idxs with
  | nil => simp
  | cons x l ih =>
    have hx : pids.getD x 0 < N := h x (by simp)
    have hl : ∀ i ∈ l, pids.getD i 0 < N := fun i hi => h i (by simp [hi])
    have hstep : ∀ p, ((List.filter (fun i => pids.getD i 0 == p) (x :: l) :
          List Nat) : Multiset Nat)
        = (if pids.getD x 0 = p then ({x} : Multiset Nat) else 0)
            + ((l.filter (fun i => pids.getD i 0 == p) : List Nat) : Multiset Nat) := by
      intro p
      rw [List.filter_cons]
      by_cases hp : pids.getD x 0 = p
      · rw [if_pos hp, if_pos (by simpa using hp)]
        rfl
      · rw [if_neg hp, if_neg (by simpa using hp)]
        simp
    calc (∑ p ∈ Finset.range N,
            ((List.filter (fun i => pids.getD i 0 == p) (x :: l) :
              List Nat) : Multiset Nat))
        = ∑ p ∈ Finset.range N,
            ((if pids.getD x 0 = p then ({x} : Multiset Nat) else 0)
              + ((l.filter (fun i => pids.getD i 0 == p) : List Nat) :
                  Multiset Nat)) :=
          Finset.sum_congr rfl fun p _ => hstep p
      _ = (∑ p ∈ Finset.range N,
              (if pids.getD x 0 = p then ({x} : Multiset Nat) else 0))
            + ∑ p ∈ Finset.range N,
                ((l.filter (fun i => pids.getD i 0 == p) : List Nat) :
                  Multiset Nat) := Finset.sum_add_distrib
      _ = ({x} : Multiset Nat) + (l : Multiset Nat) := by
          rw [ih hl, Finset.sum_ite_eq (Finset.range N) (pids.getD x 0)
            (fun _ => ({x} : Multiset Nat)), if_pos (Finset.mem_range.mpr hx)]
      _ = ((x :: l : List Nat) : Multiset Nat) := by
          rw [← Multiset.cons_coe, ← Multiset.singleton_add]

theorem writesRows_nil : writesRows ([] : List (Nat × List α)) = 0 := rfl

theorem writesRows_append (ws1 ws2 : List (Nat × List α)) :
    writesRows (ws1 ++ ws2) = writesRows ws1 + writesRows ws2 := by
  simp [writesRows]

theorem writesRows_single (p : Nat) (l : List α) :
    writesRows [(p, l)] = (l : Multiset α) := by
  simp [writesRows]

theorem flush_to_rss_fields {buf : PartitionBuffer α} (pid : Nat)
    (h : buf.numActiveRows = buf.active.length) :
    (buf.flush_to_rss pid).1.active = [] ∧
    (buf.flush_to_rss pid).1.numActiveRows = 0 ∧
    (buf.flush_to_rss pid).1.rssBatchSize = buf.rssBatchSize ∧
    writesRows (buf.flush_to_rss pid).2 = (buf.active : Multiset α) := by
  unfold PartitionBuffer.flush_to_rss
  by_cases h0 : buf.numActiveRows = 0
  · have ha : buf.active = [] := by
      rw [h0] at h
      exact (List.eq_nil_of_length_eq_zero h.symm)
    rw [if_pos h0]
    simp [ha, h0, writesRows_nil]
  · rw [if_neg h0]
    simp [writesRows_single]

/-- Full specification of the `append_rows` loop: with a positive threshold
and a buffer resting strictly below it, the loop finishes, keeps the
threshold, again rests strictly below it, preserves well-formedness, and
neither loses nor duplicates a row (buffered + written = previous + new). -/
theorem appendRowsGo_spec (r : Nat → α) (pid : Nat) :
    ∀ fuel (buf : PartitionBuffer α) (inds : List Nat) (ws : List (Nat × List α)),
      1 ≤ buf.rssBatchSize → buf.numActiveRows < buf.rssBatchSize →
      inds.length + 1 ≤ fuel →
      ∃ buf' ws', appendRowsGo r pid fuel buf inds ws = some (buf', ws') ∧
        buf'.rssBatchSize = buf.rssBatchSize ∧
        buf'.numActiveRows < buf'.rssBatchSize ∧
        (buf.numActiveRows = buf.active.length →
          buf'.numActiveRows = buf'.active.length) ∧
        (buf'.active : Multiset α) + writesRows ws'
          = (buf.active : Multiset α) + writesRows ws
              + ((inds.map r : List α) : Multiset α) := by
  intro fuel
  induction fuel with
  | zero => intro buf inds ws _ _ hf; omega
  | succ fuel ih =>
    intro buf inds ws hrss hlt hf
    match inds with
    | [] =>
      refine ⟨buf, ws, rfl, rfl, hlt, fun h => h, ?_⟩
      simp
    | x :: xs =>
      simp only [appendRowsGo]
      set inds := x :: xs with hinds
      set eL := min inds.length (buf.rssBatchSize - buf.numActiveRows) with heL
      have heL1 : 1 ≤ eL := by
        rw [heL, hinds]
        simp only [List.length_cons]
        omega
      have heLle : eL ≤ inds.length := by rw [heL]; exact Nat.min_le_left _ _
      have htklen : (inds.take eL).length = eL := by
        rw [List.length_take]
        omega
      have hdroplen : (inds.drop eL).length = inds.length - eL := by
        rw [List.length_drop]
      by_cases hcond : buf.rssBatchSize ≤ buf.numActiveRows + eL
      · rw [if_pos hcond]
        -- the chunk fills the buffer: flush, then continue with an empty buffer
        have hne : ¬(buf.numActiveRows + eL = 0) := by omega
        have hfl : ({ buf with
              active := buf.active ++ (inds.take eL).map r
              numActiveRows := buf.numActiveRows + eL } :
                PartitionBuffer α).flush_to_rss pid
            = ({ active := [], numActiveRows := 0, rssBatchSize := buf.rssBatchSize },
               [(pid, buf.active ++ (inds.take eL).map r)]) := by
          unfold PartitionBuffer.flush_to_rss
          rw [if_neg hne]
        rw [hfl]
        obtain ⟨buf', ws', hsome, hr1, hr2, hr3, hr4⟩ :=
          ih { active := [], numActiveRows := 0, rssBatchSize := buf.rssBatchSize }
            (inds.drop eL) (ws ++ [(pid, buf.active ++ (inds.take eL).map r)])
            hrss (by simpa using hrss) (by rw [hdroplen]; omega)
        refine ⟨buf', ws', hsome, hr1, hr2, fun _ => hr3 rfl, ?_⟩
        rw [hr4, writesRows_append, writesRows_single]
        have hsplit : ((inds.map r : List α) : Multiset α)
            = (((inds.take eL).map r : List α) : Multiset α)
              + (((inds.drop eL).map r : List α) : Multiset α) := by
          rw [Multiset.coe_add, ← List.map_append, List.take_append_drop]
        rw [hsplit, ← Multiset.coe_add, Multiset.coe_nil]
        abel
      · rw [if_neg hcond]
        obtain ⟨buf', ws', hsome, hr1, hr2, hr3, hr4⟩ :=
          ih { buf with
                active := buf.active ++ (inds.take eL).map r
                numActiveRows := buf.numActiveRows + eL }
            (inds.drop eL) ws hrss (by simp; omega) (by rw [hdroplen]; omega)
        refine ⟨buf', ws', hsome, hr1, hr2, ?_, ?_⟩
        · intro hwf
          refine hr3 ?_
          simp [List.length_map, List.length_take, hwf]
          omega
        · rw [hr4]
          have hsplit : ((inds.map r : List α) : Multiset α)
              = (((inds.take eL).map r : List α) : Multiset α)
                + (((inds.drop eL).map r : List α) : Multiset α) := by
            rw [Multiset.coe_add, ← List.map_append, List.take_append_drop]
          rw [hsplit, ← Multiset.coe_add]
          abel

/-- `append_rows` at the call boundary: same as `appendRowsGo_spec`, with the
default fuel and an empty write accumulator. -/
theorem append_rows_spec (buf : PartitionBuffer α) (r : Nat → α) (inds : List Nat)
    (pid : Nat) (hrss : 1 ≤ buf.rssBatchSize)
    (hlt : buf.numActiveRows < buf.rssBatchSize) :
    ∃ buf' ws, buf.append_rows r inds pid = some (buf', ws) ∧
      buf'.rssBatchSize = buf.rssBatchSize ∧
      buf'.numActiveRows < buf'.rssBatchSize ∧
      (buf.numActiveRows = buf.active.length →
        buf'.numActiveRows = buf'.active.length) ∧
      (buf'.active : Multiset α) + writesRows ws
        = (buf.active : Multiset α) + ((inds.map r : List α) : Multiset α) := by
  obtain ⟨buf', ws, hsome, h1, h2, h3, h4⟩ :=
    appendRowsGo_spec r pid (inds.length + 2) buf inds [] hrss hlt (by omega)
  refine ⟨buf', ws, hsome, h1, h2, h3, ?_⟩
  rw [writesRows_nil, add_zero] at h4
  exact h4

/-- With any positive threshold the `append_rows` loop finishes, whatever the
initial row count. -/
theorem appendRowsGo_total (r : Nat → α) (pid : Nat)
    (fuel : Nat) (buf : PartitionBuffer α) (inds : List Nat)
    (ws : List (Nat × List α)) (hrss : 1 ≤ buf.rssBatchSize)
    (hf : inds.length + 2 ≤ fuel) :
    (appendRowsGo r pid fuel buf inds ws).isSome := by
  rcases Nat.lt_or_ge buf.numActiveRows buf.rssBatchSize with hlt | hge
  · obtain ⟨b', w', hsome, -⟩ :=
      appendRowsGo_spec r pid fuel buf inds ws hrss hlt (by omega)
    rw [hsome]
    rfl
  · match fuel, hf with
    | fuel + 1, hf =>
      match inds with
      | [] => rfl
      | x :: xs =>
        simp only [appendRowsGo]
        have hsub : buf.rssBatchSize - buf.numActiveRows = 0 := by omega
        rw [hsub]
        simp only [Nat.min_zero, List.take_zero, List.map_nil, List.append_nil,
          Nat.add_zero, List.drop_zero]
        rw [if_pos hge]
        have hne : ¬(buf.numActiveRows = 0) := by omega
        have hfl : ({ buf with
              active := buf.active
              numActiveRows := buf.numActiveRows } :
                PartitionBuffer α).flush_to_rss pid
            = ({ active := [], numActiveRows := 0,
                 rssBatchSize := buf.rssBatchSize },
               [(pid, buf.active)]) := by
          unfold PartitionBuffer.flush_to_rss
          rw [if_neg hne]
        rw [hfl]
        obtain ⟨b', w', hsome, -⟩ :=
          appendRowsGo_spec r pid fuel
            { active := [], numActiveRows := 0, rssBatchSize := buf.rssBatchSize }
            (x :: xs) (ws ++ [(pid, buf.active)]) hrss (by simpa using hrss)
            (by simpa using Nat.le_of_succ_le_succ hf)
        rw [hsome]
        rfl

/-- With threshold `0` the loop of `append_rows` never terminates on
non-empty input: it returns `none` for every amount of fuel. -/
theorem appendRowsGo_rss_zero (r : Nat → α) (pid : Nat) :
    ∀ fuel (buf : PartitionBuffer α) (ws : List (Nat × List α)),
      buf.rssBatchSize = 0 → ∀ x xs,
      appendRowsGo r pid fuel buf (x :: xs) ws = none := by
  intro fuel
  induction fuel with
  | zero => intros; rfl
  | succ fuel ih =>
    intro buf ws h0 x xs
    simp only [appendRowsGo]
    rw [h0]
    simp only [Nat.zero_sub, Nat.min_zero, List.take_zero, List.map_nil,
      List.append_nil, Nat.add_zero, List.drop_zero]
    rw [if_pos (by omega)]
    unfold PartitionBuffer.flush_to_rss
    split
    · exact ih _ _ rfl x xs
    · exact ih _ _ rfl x xs

theorem bufsRows_nil : bufsRows ([] : List (PartitionBuffer α)) = 0 := rfl

theorem bufsRows_cons (b : PartitionBuffer α) (l : List (PartitionBuffer α)) :
    bufsRows (b :: l) = (b.active : Multiset α) + bufsRows l := by
  simp [bufsRows]

theorem bufsRows_append (l1 l2 : List (PartitionBuffer α)) :
    bufsRows (l1 ++ l2) = bufsRows l1 + bufsRows l2 := by
  simp [bufsRows]

/-- Replacing one buffer exchanges its rows in the total. -/
theorem bufsRows_set (bufs : List (PartitionBuffer α)) (p : Nat)
    (hp : p < bufs.length) (b : PartitionBuffer α) :
    bufsRows (bufs.set p b) + ((bufs[p].active : List α) : Multiset α)
      = bufsRows bufs + (b.active : Multiset α) := by
  have hset : bufs.set p b = bufs.take p ++ b :: bufs.drop (p + 1) := by
    rw [List.set_eq_take_append_cons_drop]
    simp [hp]
  have hdec : bufs = bufs.take p ++ bufs[p] :: bufs.drop (p + 1) := by
    conv_lhs => rw [← List.take_append_drop p bufs]
    rw [List.drop_eq_getElem_cons hp]
  rw [hset]
  conv_rhs => rw [hdec]
  rw [bufsRows_append, bufsRows_append, bufsRows_cons, bufsRows_cons]
  abel

/-- Under the row-count invariant, `flush_to_rss` always leaves the emptied
buffer, and writes the previously buffered rows exactly when there were any. -/
theorem flush_eq_emptied (b : PartitionBuffer α) (pid : Nat)
    (h : b.numActiveRows = b.active.length) :
    b.flush_to_rss pid
      = (emptied b, if b.numActiveRows = 0 then [] else [(pid, b.active)]) := by
  unfold PartitionBuffer.flush_to_rss emptied
  by_cases h0 : b.numActiveRows = 0
  · have ha : b.active = [] := by
      rw [h0] at h
      exact List.eq_nil_of_length_eq_zero h.symm
    rw [if_pos h0, if_pos h0]
    obtain ⟨a, n, rs⟩ := b
    simp_all
  · rw [if_neg h0, if_neg h0]

/-- The flush loop of `shuffle_write`/`spill`, characterised exactly: after
processing partitions `0..p0`, the first `p0` buffers are emptied, the rest
are untouched, and the writes carry exactly the previously buffered rows of
the emptied prefix, keyed by partition index in increasing order. -/
theorem flushAll_go (bufs : List (PartitionBuffer α))
    (hwf : ∀ b ∈ bufs, b.numActiveRows = b.active.length) :
    ∀ p0, p0 ≤ bufs.length →
      ∃ ws, (List.range p0).foldlM flushStep (bufs, ([] : List (Nat × List α)))
          = some ((bufs.take p0).map emptied ++ bufs.drop p0, ws) ∧
        writesRows ws = bufsRows (bufs.take p0) := by
  intro p0
  induction p0 with
  | zero =>
    intro _
    exact ⟨[], rfl, rfl⟩
  | succ p0 ih =>
    intro hle
    obtain ⟨ws, hsome, hrows⟩ := ih (by omega)
    have hp0 : p0 < bufs.length := by omega
    have hlen_map : ((bufs.take p0).map emptied).length = p0 := by
      simp [List.length_take]
      omega
    have hget : (((bufs.take p0).map emptied) ++ bufs.drop p0).get? p0
        = some bufs[p0] := by
      rw [List.get?_append_right (by omega)]
      rw [hlen_map, Nat.sub_self]
      rw [List.get?_eq_getElem?]
      rw [List.getElem?_drop]
      simp [hp0]
    have hflush : bufs[p0].flush_to_rss p0
        = (emptied bufs[p0],
           if bufs[p0].numActiveRows = 0 then []
           else [(p0, bufs[p0].active)]) :=
      flush_eq_emptied _ _ (hwf _ (List.getElem_mem hp0))
    have hlist : (((bufs.take p0).map emptied) ++ bufs.drop p0).set p0
          (emptied bufs[p0])
        = (bufs.take (p0 + 1)).map emptied ++ bufs.drop (p0 + 1) := by
      rw [List.set_append_right _ _ (by omega), hlen_map, Nat.sub_self,
        ← List.take_concat_get' _ _ hp0, List.map_append]
      rw [List.drop_eq_getElem_cons hp0, List.set_cons_zero]
      simp
    have hstep : flushStep (((bufs.take p0).map emptied) ++ bufs.drop p0, ws) p0
        = some ((bufs.take (p0 + 1)).map emptied ++ bufs.drop (p0 + 1),
            ws ++ (if bufs[p0].numActiveRows = 0 then []
                   else [(p0, bufs[p0].active)])) := by
      unfold flushStep
      rw [hget]
      simp only [hflush, hlist]
    have hcons : (List.range (p0 + 1)).foldlM flushStep
          (bufs, ([] : List (Nat × List α)))
        = flushStep (((bufs.take p0).map emptied) ++ bufs.drop p0, ws) p0 := by
      rw [List.range_succ, List.foldlM_append, hsome]
      simp
    refine ⟨ws ++ (if bufs[p0].numActiveRows = 0 then []
                   else [(p0, bufs[p0].active)]), ?_, ?_⟩
    · rw [hcons, hstep]
    · rw [writesRows_append, hrows, ← List.take_concat_get' _ _ hp0,
        bufsRows_append, bufsRows_cons, bufsRows_nil]
      by_cases h0 : bufs[p0].numActiveRows = 0
      · have ha : bufs[p0].active = [] := by
          have := hwf _ (List.getElem_mem hp0)
          rw [h0] at this
          exact List.eq_nil_of_length_eq_zero this.symm
        rw [if_pos h0, ha]
        simp [writesRows_nil]
      · rw [if_neg h0, writesRows_single]
        simp

/-- `flushAll` over the whole buffer array: every buffer is emptied and the
writes carry exactly all previously buffered rows. -/
theorem flushAll_spec (bufs : List (PartitionBuffer α))
    (hwf : ∀ b ∈ bufs, b.numActiveRows = b.active.length) :
    ∃ ws, flushAll bufs bufs.length = some (bufs.map emptied, ws) ∧
      writesRows ws = bufsRows bufs := by
  obtain ⟨ws, hsome, hrows⟩ := flushAll_go bufs hwf bufs.length (le_refl _)
  refine ⟨ws, ?_, ?_⟩
  · unfold flushAll
    rw [hsome]
    simp
  · rw [hrows]
    simp

/-- The dispatch loop of `insert_batch`, processed up to partition `p0`:
it succeeds, buffers at `≥ p0` are untouched, every buffer keeps the
row-count/threshold invariant, and buffered + written rows grow by exactly
the rows selected by the processed runs. -/
theorem insertRuns_go (r : Nat → α) (shuffled starts : List Nat)
    (bufs : List (PartitionBuffer α))
    (hwf : ∀ b ∈ bufs, b.numActiveRows = b.active.length ∧
      b.numActiveRows < b.rssBatchSize) :
    ∀ p0, p0 ≤ bufs.length →
      ∃ bufs2 ws,
        (List.range p0).foldlM (insertStep r shuffled starts)
            (bufs, ([] : List (Nat × List α))) = some (bufs2, ws) ∧
        bufs2.length = bufs.length ∧
        (∀ q, p0 ≤ q → bufs2.get? q = bufs.get? q) ∧
        (∀ b ∈ bufs2, b.numActiveRows = b.active.length ∧
          b.numActiveRows < b.rssBatchSize) ∧
        bufsRows bufs2 + writesRows ws
          = bufsRows bufs + ∑ p ∈ Finset.range p0, runSel r shuffled starts p := by
  intro p0
  induction p0 with
  | zero =>
    intro _
    exact ⟨bufs, [], rfl, rfl, fun q _ => rfl, hwf, by simp [writesRows_nil]⟩
  | succ p0 ih =>
    intro hle
    obtain ⟨bufs2, ws, hsome, hlen, hframe, hwf2, hcons⟩ := ih (by omega)
    have hp0 : p0 < bufs.length := by omega
    have hfold : (List.range (p0 + 1)).foldlM (insertStep r shuffled starts)
          (bufs, ([] : List (Nat × List α)))
        = insertStep r shuffled starts (bufs2, ws) p0 := by
      rw [List.range_succ, List.foldlM_append, hsome]
      simp
    by_cases hrun : starts.getD p0 0 < starts.getD (p0 + 1) 0
    case neg =>
      refine ⟨bufs2, ws, ?_, hlen, ?_, hwf2, ?_⟩
      · rw [hfold]
        simp only [insertStep]
        rw [if_neg hrun]
      · intro q hq
        exact hframe q (by omega)
      · rw [hcons, Finset.sum_range_succ]
        unfold runSel
        rw [if_neg hrun, add_zero]
    case pos =>
      have hget2 : bufs2.get? p0 = some bufs[p0] := by
        rw [hframe p0 (le_refl _), List.get?_eq_getElem?,
          List.getElem?_eq_getElem hp0]
      obtain ⟨hwfp, hltp⟩ := hwf _ (List.getElem_mem hp0)
      set run := (shuffled.drop (starts.getD p0 0)).take
          (starts.getD (p0 + 1) 0 - starts.getD p0 0) with hrundef
      have hproc : ∃ b2 ws2, processRun r bufs[p0] run p0 = some (b2, ws2) ∧
          b2.numActiveRows = b2.active.length ∧
          b2.numActiveRows < b2.rssBatchSize ∧
          (b2.active : Multiset α) + writesRows ws2
            = (bufs[p0].active : Multiset α)
              + ((run.map r : List α) : Multiset α) := by
      -- small runs go through append_rows, large ones through append_batch
        unfold processRun
        by_cases hsmall : run.length < bufs[p0].rssBatchSize
        · rw [if_pos hsmall]
          obtain ⟨b2, ws2, hs, h1, h2, h3, h4⟩ :=
            append_rows_spec bufs[p0] r run p0 (by omega) hltp
          exact ⟨b2, ws2, hs, h3 hwfp, h2, h4⟩
        · rw [if_neg hsmall]
          refine ⟨bufs[p0], [(p0, run.map r)], rfl, hwfp, hltp, ?_⟩
          rw [writesRows_single]
      obtain ⟨b2, ws2, hps, hw1, hw2, hconsrun⟩ := hproc
      have hstep : insertStep r shuffled starts (bufs2, ws) p0
          = some (bufs2.set p0 b2, ws ++ ws2) := by
        simp only [insertStep]
        rw [if_pos hrun, hget2, ← hrundef]
        simp only [hps]
      have hp0' : p0 < bufs2.length := by omega
      refine ⟨bufs2.set p0 b2, ws ++ ws2, by rw [hfold, hstep],
        by simp [hlen], ?_, ?_, ?_⟩
      · intro q hq
        rw [List.get?_set_ne _ _ (by omega)]
        exact hframe q (by omega)
      · intro b hb
        rcases List.mem_or_eq_of_mem_set hb with h | h
        · exact hwf2 b h
        · subst h
          exact ⟨hw1, hw2⟩
      · have hexch := bufsRows_set bufs2 p0 hp0' b2
        have hold : bufs2[p0] = bufs[p0] := by
          have h := hget2
          rw [List.get?_eq_getElem?, List.getElem?_eq_getElem hp0'] at h
          exact Option.some_injective _ h
        rw [hold] at hexch
        have hsum : runSel r shuffled starts p0
            = ((run.map r : List α) : Multiset α) := by
          unfold runSel
          rw [if_pos hrun, ← hrundef]
        have hboth : bufsRows (bufs2.set p0 b2) + writesRows (ws ++ ws2)
              + (bufs[p0].active : Multiset α)
            = bufsRows bufs
              + (∑ p ∈ Finset.range (p0 + 1), runSel r shuffled starts p)
              + (bufs[p0].active : Multiset α) := by
          rw [writesRows_append, Finset.sum_range_succ]
          calc bufsRows (bufs2.set p0 b2) + (writesRows ws + writesRows ws2)
                + (bufs[p0].active : Multiset α)
              = (bufsRows (bufs2.set p0 b2) + (bufs[p0].active : Multiset α))
                + writesRows ws + writesRows ws2 := by abel
            _ = bufsRows bufs2 + (b2.active : Multiset α) + writesRows ws
                + writesRows ws2 := by rw [hexch]
            _ = (bufsRows bufs2 + writesRows ws)
                + ((b2.active : Multiset α) + writesRows ws2) := by abel
            _ = (bufsRows bufs
                  + ∑ p ∈ Finset.range p0, runSel r shuffled starts p)
                + ((bufs[p0].active : Multiset α)
                  + ((run.map r : List α) : Multiset α)) := by
                rw [hcons, hconsrun]
            _ = bufsRows bufs
                + ((∑ p ∈ Finset.range p0, runSel r shuffled starts p)
                  + runSel r shuffled starts p0)
                + (bufs[p0].active : Multiset α) := by
                rw [hsum]
                abel
        exact add_right_cancel hboth

theorem multiset_map_finset_sum (f : Nat → α) (s : Finset Nat)
    (g : Nat → Multiset Nat) :
    Multiset.map f (∑ p ∈ s, g p) = ∑ p ∈ s, Multiset.map f (g p) := by
  classical
  induction s using Finset.induction with
  | empty => simp
  | insert hx ih => simp [Finset.sum_insert hx, Multiset.map_add, ih]

/-- Over all partitions, the rows selected by the runs of one `insert_batch`
are exactly the rows of the input batch (as indices `0..n`, mapped through the
row lookup). -/
theorem sum_runSel {N : Nat} {pids : List Nat} (r : Nat → α)
    (hpids : ∀ i ∈ pids, i < N) :
    ∑ p ∈ Finset.range N,
        runSel r (shuffledAndStarts N pids).1 (shuffledAndStarts N pids).2 p
      = (((List.range pids.length).map r : List α) : Multiset α) := by
  obtain ⟨hlen1, hlen2, hstarts, hslice⟩ := shuffledAndStarts_spec hpids
  have hsel : ∀ p, p < N →
      runSel r (shuffledAndStarts N pids).1 (shuffledAndStarts N pids).2 p
        = (((bucketRun pids 0 p).map r : List α) : Multiset α) := by
    intro p hp
    have hs : (shuffledAndStarts N pids).2.getD p 0 = startOf pids p :=
      hstarts p (by omega)
    have he : (shuffledAndStarts N pids).2.getD (p + 1) 0 = startOf pids (p + 1) :=
      hstarts (p + 1) (by omega)
    have hlen0 : (bucketRun pids 0 p).length = cntTo pids p := by
      rw [bucketRun_length pids p _ 0 rfl]
      simp [cntTo]
    unfold runSel
    rw [hs, he, startOf_succ]
    by_cases hc : 0 < cntTo pids p
    · rw [if_pos (by omega)]
      have : startOf pids p + cntTo pids p - startOf pids p = cntTo pids p := by
        omega
      rw [this, hslice p hp]
    · rw [if_neg (by omega)]
      have : bucketRun pids 0 p = [] := by
        have : (bucketRun pids 0 p).length = 0 := by omega
        exact List.eq_nil_of_length_eq_zero this
      rw [this]
      simp
  calc ∑ p ∈ Finset.range N,
          runSel r (shuffledAndStarts N pids).1 (shuffledAndStarts N pids).2 p
      = ∑ p ∈ Finset.range N,
          (((bucketRun pids 0 p).map r : List α) : Multiset α) :=
        Finset.sum_congr rfl fun p hp => hsel p (Finset.mem_range.mp hp)
    _ = ∑ p ∈ Finset.range N,
          Multiset.map r ((bucketRun pids 0 p : List Nat) : Multiset Nat) := by
        refine Finset.sum_congr rfl fun p _ => ?_
        simp
    _ = Multiset.map r
          (∑ p ∈ Finset.range N, ((bucketRun pids 0 p : List Nat) : Multiset Nat)) :=
        (multiset_map_finset_sum r _ _).symm
    _ = Multiset.map r ((List.range pids.length : List Nat) : Multiset Nat) := by
        have hbr : ∀ p : Nat, bucketRun pids 0 p
            = (List.range pids.length).filter (fun i => pids.getD i 0 == p) := by
          intro p
          unfold bucketRun
          rw [Nat.sub_zero, ← List.range_eq_range']
        rw [Finset.sum_congr rfl fun p _ => by rw [hbr p]]
        rw [sum_filter_buckets pids (List.range pids.length)]
        intro i hi
        have : i < pids.length := List.mem_range.mp hi
        rw [List.getD_eq_getElem _ _ this]
        exact hpids _ (List.getElem_mem this)
    _ = (((List.range pids.length).map r : List α) : Multiset α) := by
        simp

theorem map_getD_range [Inhabited α] (l : List α) :
    (List.range l.length).map (fun i => l.getD i default) = l := by
  apply List.ext_getElem
  · simp
  · intro i h1 h2
    simp only [List.getElem_map, List.getElem_range]
    exact List.getD_eq_getElem l default h2

theorem mapM_const_some {β : Type*} (l : List Nat) (b : β) :
    l.mapM (fun _ => some b) = some (List.replicate l.length b) := by
  rw [← List.mapM'_eq_mapM]
  induction l with
  | nil => rfl
  | cons x xs ih => simp [List.mapM', ih, List.replicate_succ]

/-- `RssBucketShuffleRepartitioner::new` with a positive configured batch
size: construction always succeeds (no validation of `N` whatsoever), with
`N` identical empty buffers whose threshold is
`batch_size / ⌊log₂(batch_size+1)⌋ ≥ 1`, and zero accounted memory. -/
theorem new_spec (α : Type*) (N batchSize : Nat) (hb : 1 ≤ batchSize) :
    ∃ st : RepState α, RepState.new α N batchSize = some st ∧
      st.numOutputPartitions = N ∧ st.memUsed = 0 ∧
      st.buffers = List.replicate N
        { active := [], numActiveRows := 0,
          rssBatchSize := batchSize / Nat.log2 (batchSize + 1) } ∧
      1 ≤ batchSize / Nat.log2 (batchSize + 1) := by
  have hd : 0 < Nat.log2 (batchSize + 1) := by
    rw [Nat.log2_eq_log_two]
    exact Nat.log_pos (by omega) (by omega)
  have hdle : Nat.log2 (batchSize + 1) ≤ batchSize := by
    have h2 : batchSize + 1 < 2 ^ (batchSize + 1) := Nat.lt_two_pow _
    have h3 : Nat.log2 (batchSize + 1) < batchSize + 1 :=
      (Nat.log2_lt (by omega)).mpr h2
    omega
  have hone : 1 ≤ batchSize / Nat.log2 (batchSize + 1) :=
    (Nat.one_le_div_iff hd).mpr hdle
  have hnew : PartitionBuffer.new α batchSize
      = some { active := [], numActiveRows := 0,
               rssBatchSize := batchSize / Nat.log2 (batchSize + 1) } := by
    unfold PartitionBuffer.new
    rw [if_neg (by omega)]
  refine ⟨⟨List.replicate N ⟨[], 0, batchSize / Nat.log2 (batchSize + 1)⟩, N, 0⟩,
    ?_, rfl, rfl, rfl, hone⟩
  unfold RepState.new
  rw [hnew, mapM_const_some]
  simp

/-- `insert_batch`, fully specified: under the structural invariants it
succeeds, preserves them, adds the batch's size estimate to the accounted
memory, and buffered + written rows grow by exactly the batch's rows. -/
theorem insert_batch_spec [Inhabited α] (st : RepState α) (rows : List α)
    (pids : List Nat) (m : Nat)
    (hN : st.numOutputPartitions = st.buffers.length)
    (hpids : ∀ i ∈ pids, i < st.numOutputPartitions)
    (hlenr : pids.length = rows.length)
    (hwf : ∀ b ∈ st.buffers, b.numActiveRows = b.active.length ∧
      b.numActiveRows < b.rssBatchSize) :
    ∃ st' ws, st.insert_batch rows pids m = some (st', ws) ∧
      st'.numOutputPartitions = st.numOutputPartitions ∧
      st'.buffers.length = st.buffers.length ∧
      (∀ b ∈ st'.buffers, b.numActiveRows = b.active.length ∧
        b.numActiveRows < b.rssBatchSize) ∧
      st'.memUsed = st.memUsed + m ∧
      bufsRows st'.buffers + writesRows ws
        = bufsRows st.buffers + (rows : Multiset α) := by
  obtain ⟨bufs2, ws, hsome, hlen, hframe, hwf2, hcons⟩ :=
    insertRuns_go (fun i => rows.getD i default)
      (shuffledAndStarts st.numOutputPartitions pids).1
      (shuffledAndStarts st.numOutputPartitions pids).2
      st.buffers hwf st.numOutputPartitions (by omega)
  have hsome' : insertRuns (fun i => rows.getD i default)
      (shuffledAndStarts st.numOutputPartitions pids).1
      (shuffledAndStarts st.numOutputPartitions pids).2
      st.numOutputPartitions st.buffers = some (bufs2, ws) := by
    unfold insertRuns
    rw [hN] at hsome ⊢
    exact hsome
  refine ⟨{ st with buffers := bufs2, memUsed := st.memUsed + m }, ws, ?_,
    rfl, hlen, hwf2, rfl, ?_⟩
  · unfold RepState.insert_batch
    simp only []
    rw [show ({ st with memUsed := st.memUsed + m } : RepState α).buffers
      = st.buffers from rfl]
    rw [hsome']
  · rw [hcons, sum_runSel _ hpids, hlenr, map_getD_range]

/-- A whole sequence of `insert_batch` calls: succeeds, preserves the
invariants, accumulates the size estimates, and buffered + written rows grow
by exactly all inserted rows. -/
theorem runInserts_spec [Inhabited α] :
    ∀ (inputs : List (InsertInput α)) (st : RepState α),
      st.numOutputPartitions = st.buffers.length →
      (∀ b ∈ inputs, b.pids.length = b.rows.length ∧
        ∀ i ∈ b.pids, i < st.numOutputPartitions) →
      (∀ b ∈ st.buffers, b.numActiveRows = b.active.length ∧
        b.numActiveRows < b.rssBatchSize) →
      ∃ st' ws, runInserts st inputs = some (st', ws) ∧
        st'.numOutputPartitions = st.numOutputPartitions ∧
        st'.buffers.length = st.buffers.length ∧
        (∀ b ∈ st'.buffers, b.numActiveRows = b.active.length ∧
          b.numActiveRows < b.rssBatchSize) ∧
        st'.memUsed = st.memUsed + (inputs.map (fun b => b.memIncrease)).sum ∧
        bufsRows st'.buffers + writesRows ws
          = bufsRows st.buffers
            + (inputs.map (fun b => (b.rows : Multiset α))).sum := by
  intro inputs
  induction inputs with
  | nil =>
    intro st hN _ hwf
    exact ⟨st, [], rfl, rfl, rfl, hwf, by simp, by simp [writesRows_nil]⟩
  | cons b bs ih =>
    intro st hN hok hwf
    obtain ⟨hblen, hbpids⟩ := hok b (by simp)
    obtain ⟨st1, ws1, hsome1, he1, he2, hwf1, hm1, hc1⟩ :=
      insert_batch_spec st b.rows b.pids b.memIncrease hN hbpids hblen hwf
    obtain ⟨st2, ws2, hsome2, hf1, hf2, hwf2, hm2, hc2⟩ :=
      ih st1 (by omega)
        (fun x hx => ⟨(hok x (by simp [hx])).1, fun i hi => by
          rw [he1]; exact (hok x (by simp [hx])).2 i hi⟩)
        hwf1
    refine ⟨st2, ws1 ++ ws2, ?_, by omega, by omega, hwf2, ?_, ?_⟩
    · unfold runInserts
      simp only [hsome1, hsome2]
    · rw [hm2, hm1]
      simp
      omega
    · rw [writesRows_append]
      calc bufsRows st2.buffers + (writesRows ws1 + writesRows ws2)
          = (bufsRows st2.buffers + writesRows ws2) + writesRows ws1 := by abel
        _ = (bufsRows st1.buffers
              + (List.map (fun b => (b.rows : Multiset α)) bs).sum)
            + writesRows ws1 := by rw [hc2]
        _ = (bufsRows st1.buffers + writesRows ws1)
            + (List.map (fun b => (b.rows : Multiset α)) bs).sum := by abel
        _ = (bufsRows st.buffers + (b.rows : Multiset α))
            + (List.map (fun b => (b.rows : Multiset α)) bs).sum := by rw [hc1]
        _ = bufsRows st.buffers
            + (List.map (fun b => (b.rows : Multiset α)) (b :: bs)).sum := by
            simp only [List.map_cons, List.sum_cons]
            abel

/-- `shuffle_write` (finalize): flushes every buffer in index order, empties
them all, leaves the memory accounting untouched, and writes exactly the
buffered rows. -/
theorem shuffle_write_spec (st : RepState α)
    (hN : st.numOutputPartitions = st.buffers.length)
    (hwf : ∀ b ∈ st.buffers, b.numActiveRows = b.active.length) :
    ∃ st' ws, st.shuffle_write = some (st', ws) ∧
      st'.buffers = st.buffers.map emptied ∧
      st'.numOutputPartitions = st.numOutputPartitions ∧
      st'.memUsed = st.memUsed ∧
      writesRows ws = bufsRows st.buffers := by
  obtain ⟨ws, hsome, hrows⟩ := flushAll_spec st.buffers hwf
  refine ⟨{ st with buffers := st.buffers.map emptied }, ws, ?_, rfl, rfl, rfl,
    hrows⟩
  unfold RepState.shuffle_write
  rw [hN, hsome]
  rfl

/-- `spill` on a non-empty buffer array: flushes every buffer in index order,
returns the previously accounted bytes, zeroes the accounting, and writes
exactly the buffered rows. -/
theorem spill_spec (st : RepState α)
    (hN : st.numOutputPartitions = st.buffers.length)
    (hne : st.buffers ≠ [])
    (hwf : ∀ b ∈ st.buffers, b.numActiveRows = b.active.length) :
    ∃ st' ws, st.spill = some (st.memUsed, st', ws) ∧
      st'.buffers = st.buffers.map emptied ∧
      st'.memUsed = 0 ∧
      st'.numOutputPartitions = st.numOutputPartitions ∧
      writesRows ws = bufsRows st.buffers := by
  obtain ⟨ws, hsome, hrows⟩ := flushAll_spec st.buffers hwf
  refine ⟨{ st with buffers := st.buffers.map emptied, memUsed := 0 }, ws, ?_,
    rfl, rfl, rfl, hrows⟩
  unfold RepState.spill
  rw [if_neg (by simpa [List.length_eq_zero] using hne), hN, hsome]
  rfl

theorem bucketRun_zero (pids : List Nat) (p : Nat) :
    bucketRun pids 0 p
      = (List.range pids.length).filter (fun i => pids.getD i 0 == p) := by
  unfold bucketRun
  rw [Nat.sub_zero, ← List.range_eq_range']

theorem bufsRows_map_emptied (l : List (PartitionBuffer α)) :
    bufsRows (l.map emptied) = 0 := by
  induction l with
  | nil => rfl
  | cons b bs ih => simp [bufsRows_cons, emptied, ih]

theorem bufsRows_replicate_empty (N rss : Nat) :
    bufsRows (List.replicate N (⟨[], 0, rss⟩ : PartitionBuffer α)) = 0 := by
  induction N with
  | zero => rfl
  | succ n ih => simp [List.replicate_succ, bufsRows_cons, ih]

/-- C1: for every sequence of inserted batches and every partition count
`N ≥ 1` (with positive configured batch size, one partition id `< N` per
row), after finalization (`shuffle_write`) the multiset union of the rows
delivered to the sink across all partitions equals exactly the multiset of
the rows of the inserted batches: no row is lost and no row is duplicated,
whether a row travelled through the row-wise (`append_rows`) or the bulk
(`append_batch`) path; moreover the buffers end empty. -/
theorem insert_finalize_delivers_exactly_inserted_rows [Inhabited α]
    (N batchSize : Nat) (inputs : List (InsertInput α))
    (hN : 1 ≤ N) (hb : 1 ≤ batchSize)
    (hok : ∀ b ∈ inputs, b.pids.length = b.rows.length ∧
      ∀ i ∈ b.pids, i < N) :
    ∃ st0 st1 ws1 st2 ws2,
      RepState.new α N batchSize = some st0 ∧
      runInserts st0 inputs = some (st1, ws1) ∧
      st1.shuffle_write = some (st2, ws2) ∧
      writesRows ws1 + writesRows ws2
        = (inputs.map (fun b => (b.rows : Multiset α))).sum ∧
      bufsRows st2.buffers = 0 := by
  obtain ⟨st0, hnew, hN0, hm0, hbufs0, hrss0⟩ := new_spec α N batchSize hb
  have hlen0 : st0.buffers.length = N := by
    rw [hbufs0, List.length_replicate]
  have hwf0 : ∀ b ∈ st0.buffers, b.numActiveRows = b.active.length ∧
      b.numActiveRows < b.rssBatchSize := by
    intro b hb'
    rw [hbufs0] at hb'
    have := List.eq_of_mem_replicate hb'
    subst this
    exact ⟨rfl, by simpa using hrss0⟩
  obtain ⟨st1, ws1, hrun, hN1, hlen1, hwf1, hm1, hc1⟩ :=
    runInserts_spec inputs st0 (by omega)
      (fun b hb' => ⟨(hok b hb').1, fun i hi => by
        rw [hN0]; exact (hok b hb').2 i hi⟩)
      hwf0
  obtain ⟨st2, ws2, hsw, hbufs2, hN2, hm2, hc2⟩ :=
    shuffle_write_spec st1 (by omega) (fun b hb' => (hwf1 b hb').1)
  refine ⟨st0, st1, ws1, st2, ws2, hnew, hrun, hsw, ?_, ?_⟩
  · have hz : bufsRows st0.buffers = 0 := by
      rw [hbufs0]
      exact bufsRows_replicate_empty N _
    rw [hc2]
    rw [hz] at hc1
    rw [zero_add] at hc1
    calc writesRows ws1 + bufsRows st1.buffers
        = bufsRows st1.buffers + writesRows ws1 := by abel
      _ = (inputs.map (fun b => (b.rows : Multiset α))).sum := hc1
  · rw [hbufs2]
    exact bufsRows_map_emptied _

/-- C1 witness: two partitions, batch size 8, one three-row batch. -/
theorem insert_finalize_delivers_exactly_inserted_rows_witness :
    ∃ st0 st1 ws1 st2 ws2,
      RepState.new Nat 2 8 = some st0 ∧
      runInserts st0 ([⟨[10, 11, 12], [0, 1, 0], 5⟩] : List (InsertInput Nat))
        = some (st1, ws1) ∧
      st1.shuffle_write = some (st2, ws2) ∧
      writesRows ws1 + writesRows ws2
        = (([⟨[10, 11, 12], [0, 1, 0], 5⟩] : List (InsertInput Nat)).map
            (fun b => (b.rows : Multiset Nat))).sum ∧
      bufsRows st2.buffers = 0 :=
  insert_finalize_delivers_exactly_inserted_rows 2 8
    ([⟨[10, 11, 12], [0, 1, 0], 5⟩] : List (InsertInput Nat))
    (by decide) (by decide) (by decide)

/-- C2 counterexample: a state reachable by one `insert_batch` (two rows to
partition 0, bulk path, size estimate 100) in which every buffer is empty yet
`mem_used` reports 100: the accounted usage does not reflect only currently
buffered, unflushed data, and no freed memory is reported after the flush. -/
theorem mem_used_not_buffered_counterexample :
    (RepState.new Nat 1 1).bind
        (fun st0 => st0.insert_batch [5, 6] [0, 0] 100)
      = some (⟨[⟨[], 0, 1⟩], 1, 100⟩, [(0, [5, 6])]) ∧
    bufsRows ([⟨[], 0, 1⟩] : List (PartitionBuffer Nat)) = 0 ∧
    RepState.mem_used (⟨[⟨[], 0, 1⟩], 1, 100⟩ : RepState Nat) = 100 ∧
    (100 : Nat) ≠ 0 := by
  refine ⟨?_, by decide, rfl, by decide⟩
  have h1 : RepState.new Nat 1 1 = some ⟨[⟨[], 0, 1⟩], 1, 0⟩ := by
    simp [RepState.new, PartitionBuffer.new, Nat.log2]
    rfl
  rw [h1]
  decide

theorem insert_batch_memUsed [Inhabited α] {st st' : RepState α}
    {rows : List α} {pids : List Nat} {m : Nat} {ws : List (Nat × List α)}
    (h : st.insert_batch rows pids m = some (st', ws)) :
    st'.memUsed = st.memUsed + m := by
  simp only [RepState.insert_batch] at h
  split at h
  · cases h
  · cases h
    rfl

theorem runInserts_memUsed [Inhabited α] :
    ∀ (inputs : List (InsertInput α)) (st st1 : RepState α)
      (ws1 : List (Nat × List α)),
      runInserts st inputs = some (st1, ws1) →
      st1.memUsed = st.memUsed + (inputs.map (fun b => b.memIncrease)).sum := by
  intro inputs
  induction inputs with
  | nil =>
    intro st st1 ws1 h
    unfold runInserts at h
    cases h
    simp
  | cons b bs ih =>
    intro st st1 ws1 h
    unfold runInserts at h
    split at h
    · cases h
    · rename_i stp wsp heq
      split at h
      · cases h
      · rename_i stq wsq heq2
        cases h
        have hb := insert_batch_memUsed heq
        have hq := ih _ _ _ heq2
        rw [hq, hb]
        simp
        omega

/-- C2 amended: the accounted usage is the running total of the size
estimates of all inserted batches; a flush — threshold-triggered or during
finalize — never decreases it and reports no freed memory; only `spill`
resets it, to exactly zero, returning the previous total. -/
theorem mem_used_accumulates [Inhabited α] (st : RepState α)
    (inputs : List (InsertInput α)) (st1 : RepState α)
    (ws1 : List (Nat × List α))
    (h1 : runInserts st inputs = some (st1, ws1)) :
    st1.memUsed = st.memUsed + (inputs.map (fun b => b.memIncrease)).sum ∧
    (∀ st2 ws2, st1.shuffle_write = some (st2, ws2) →
      st2.memUsed = st1.memUsed) ∧
    (∀ n st2 ws2, st1.buffers ≠ [] → st1.spill = some (n, st2, ws2) →
      n = st1.memUsed ∧ st2.memUsed = 0) := by
  refine ⟨runInserts_memUsed inputs st st1 ws1 h1, ?_, ?_⟩
  · intro st2 ws2 h
    unfold RepState.shuffle_write at h
    rcases hfa : flushAll st1.buffers st1.numOutputPartitions with _ | pr
    · rw [hfa] at h
      cases h
    · rw [hfa] at h
      cases h
      rfl
  · intro n st2 ws2 hne h
    unfold RepState.spill at h
    rw [if_neg (by simpa [List.length_eq_zero] using hne)] at h
    rcases hfa : flushAll st1.buffers st1.numOutputPartitions with _ | pr
    · rw [hfa] at h
      cases h
    · rw [hfa] at h
      cases h
      exact ⟨rfl, rfl⟩

/-- C2 amended witness: one insert of estimated size 100, then finalize and
spill on the resulting state. -/
theorem mem_used_accumulates_witness :
    ((RepState.new Nat 1 1).bind
        (fun st0 => runInserts st0 [⟨[5, 6], [0, 0], 100⟩])
      = some (⟨[⟨[], 0, 1⟩], 1, 100⟩, [(0, [5, 6])])) ∧
    ((⟨[⟨[], 0, 1⟩], 1, 100⟩ : RepState Nat).memUsed
      = (⟨[⟨[], 0, 1⟩], 1, 0⟩ : RepState Nat).memUsed
        + ([⟨[5, 6], [0, 0], 100⟩].map
            (fun b : InsertInput Nat => b.memIncrease)).sum) := by
  have h1 : RepState.new Nat 1 1 = some ⟨[⟨[], 0, 1⟩], 1, 0⟩ := by
    simp [RepState.new, PartitionBuffer.new, Nat.log2]
    rfl
  have h2 : runInserts (⟨[⟨[], 0, 1⟩], 1, 0⟩ : RepState Nat)
      [⟨[5, 6], [0, 0], 100⟩]
      = some (⟨[⟨[], 0, 1⟩], 1, 100⟩, [(0, [5, 6])]) := by decide
  refine ⟨by rw [h1]; exact h2, ?_⟩
  exact (mem_used_accumulates (⟨[⟨[], 0, 1⟩], 1, 0⟩ : RepState Nat)
    [⟨[5, 6], [0, 0], 100⟩] _ _ h2).1

/-- C3: an `append_rows` call on a buffer resting strictly below its positive
flush threshold returns with the row count again strictly below the
threshold (the threshold itself unchanged): if a chunk reaches or exceeds
the threshold mid-call, the internal flush of line 281 runs before the call
returns, so a row count `≥ rss_batch_size` exists only transiently during an
active append. -/
theorem append_rows_rests_below_threshold (buf : PartitionBuffer α)
    (r : Nat → α) (inds : List Nat) (pid : Nat)
    (hrss : 1 ≤ buf.rssBatchSize)
    (hlt : buf.numActiveRows < buf.rssBatchSize) :
    ∃ buf' ws, buf.append_rows r inds pid = some (buf', ws) ∧
      buf'.rssBatchSize = buf.rssBatchSize ∧
      buf'.numActiveRows < buf'.rssBatchSize := by
  obtain ⟨buf', ws, hsome, h1, h2, -, -⟩ :=
    append_rows_spec buf r inds pid hrss hlt
  exact ⟨buf', ws, hsome, h1, h2⟩

/-- C3 witness: threshold 2, five rows appended to an empty buffer. -/
theorem append_rows_rests_below_threshold_witness :
    ∃ buf' ws,
      PartitionBuffer.append_rows ⟨[], 0, 2⟩ (fun i => i) [10, 11, 12, 13, 14] 7
        = some (buf', ws) ∧
      buf'.rssBatchSize = (⟨[], 0, 2⟩ : PartitionBuffer Nat).rssBatchSize ∧
      buf'.numActiveRows < buf'.rssBatchSize :=
  append_rows_rests_below_threshold ⟨[], 0, 2⟩ (fun i => i) [10, 11, 12, 13, 14]
    7 (by decide) (by decide)

/-- C4: for every input batch the counting pass, the single prefix-sum pass
and the reverse-order fill produce `partition_starts` and
`shuffled_partition_ids` such that the starts begin at `0`, end at the row
count, are monotone (so the runs tile the whole scratch array), and for
every bucket `p < N` the slice
`shuffled_partition_ids[starts[p]..starts[p+1]]` contains, as a multiset,
exactly the indices of the rows whose partition id is `p` — each exactly
once, grouping only. -/
theorem insert_batch_grouping {N : Nat} {pids : List Nat}
    (hpids : ∀ i ∈ pids, i < N) :
    (shuffledAndStarts N pids).1.length = pids.length ∧
    (shuffledAndStarts N pids).2.length = N + 1 ∧
    (shuffledAndStarts N pids).2.getD 0 0 = 0 ∧
    (shuffledAndStarts N pids).2.getD N 0 = pids.length ∧
    (∀ p q, p ≤ q → q ≤ N →
      (shuffledAndStarts N pids).2.getD p 0
        ≤ (shuffledAndStarts N pids).2.getD q 0) ∧
    (∀ p, p < N →
      ((((shuffledAndStarts N pids).1.drop
            ((shuffledAndStarts N pids).2.getD p 0)).take
          ((shuffledAndStarts N pids).2.getD (p + 1) 0
            - (shuffledAndStarts N pids).2.getD p 0) : List Nat) : Multiset Nat)
        = (((List.range pids.length).filter
            (fun i => pids.getD i 0 == p) : List Nat) : Multiset Nat)) := by
  obtain ⟨hlen1, hlen2, hstarts, hslice⟩ := shuffledAndStarts_spec hpids
  refine ⟨hlen1, hlen2, ?_, ?_, ?_, ?_⟩
  · rw [hstarts 0 (by omega), startOf_zero]
  · rw [hstarts N (le_refl _), startOf_all hpids]
  · intro p q hpq hq
    rw [hstarts p (by omega), hstarts q hq]
    exact startOf_mono pids hpq
  · intro p hp
    have hs := hstarts p (by omega)
    have he := hstarts (p + 1) (by omega)
    rw [hs, he, startOf_succ]
    have hsub : startOf pids p + cntTo pids p - startOf pids p
        = cntTo pids p := by omega
    rw [hsub, hslice p hp, bucketRun_zero]

/-- C4 witness: four buckets, eight rows with ids `[0,1,2,3,0,1,2,3]`. -/
theorem insert_batch_grouping_witness :
    (shuffledAndStarts 4 [0, 1, 2, 3, 0, 1, 2, 3]).1.length
        = ([0, 1, 2, 3, 0, 1, 2, 3] : List Nat).length ∧
      (shuffledAndStarts 4 [0, 1, 2, 3, 0, 1, 2, 3]).2.getD 4 0
        = ([0, 1, 2, 3, 0, 1, 2, 3] : List Nat).length :=
  ⟨(insert_batch_grouping (by decide)).1,
   (insert_batch_grouping (by decide)).2.2.2.1⟩

/-- C5 counterexample: constructing the repartitioner with a requested
partition count of zero does not fail — it returns a usable instance with an
empty buffer array, which accepts an (empty) insert and answers `spill`
with zero freed bytes. -/
theorem new_zero_partitions_succeeds :
    RepState.new Nat 0 8 = some ⟨[], 0, 0⟩ ∧
    (⟨[], 0, 0⟩ : RepState Nat).insert_batch [] [] 7 = some (⟨[], 0, 7⟩, []) ∧
    (⟨[], 0, 7⟩ : RepState Nat).spill = some (0, ⟨[], 0, 7⟩, []) := by
  refine ⟨?_, by decide, by decide⟩
  rfl

/-- C5 amended: construction performs no validation of the partition count at
all — for every `N` (including `0`) and every positive configured batch size
it succeeds and returns a repartitioner with exactly `N` buffers. -/
theorem new_never_rejects (α : Type*) (N batchSize : Nat) (hb : 1 ≤ batchSize) :
    ∃ st : RepState α, RepState.new α N batchSize = some st ∧
      st.numOutputPartitions = N ∧ st.buffers.length = N ∧ st.memUsed = 0 := by
  obtain ⟨st, hnew, h1, h2, h3, -⟩ := new_spec α N batchSize hb
  exact ⟨st, hnew, h1, by rw [h3, List.length_replicate], h2⟩

/-- C5 amended witness: partition count zero is accepted. -/
theorem new_never_rejects_witness :
    ∃ st : RepState Nat, RepState.new Nat 0 8 = some st ∧
      st.numOutputPartitions = 0 ∧ st.buffers.length = 0 ∧ st.memUsed = 0 :=
  new_never_rejects Nat 0 8 (by decide)

/-- C6 counterexample: on the reachable state with an empty buffer array
(`N = 0`) and 7 accounted bytes (an empty batch inserted with size estimate
7), `spill` takes the early return of lines 207-209: it reports 0 freed bytes
— not the 7 that were accounted — and leaves the accounted usage at 7, not
zero. -/
theorem spill_empty_array_counterexample :
    ((RepState.new Nat 0 8).bind
        (fun st0 => st0.insert_batch [] [] 7)).bind
        (fun r1 => r1.1.spill)
      = some (0, ⟨[], 0, 7⟩, []) ∧
    (0 : Nat) ≠ 7 ∧
    RepState.mem_used (⟨[], 0, 7⟩ : RepState Nat) ≠ 0 := by
  refine ⟨?_, by decide, by decide⟩
  have h1 : RepState.new Nat 0 8 = some ⟨[], 0, 0⟩ := rfl
  rw [h1]
  decide

/-- C6 amended: on a non-empty buffer array `spill` flushes every buffer in
index order, returns exactly the bytes accounted before the reset and sets
the accounted usage to exactly zero (it is a `Nat`, so it is never negative);
on an empty buffer array (`N = 0`, reachable since construction is not
validated) `spill` returns 0 and leaves the accounting unchanged. -/
theorem spill_zeroes_accounting (st : RepState α)
    (hN : st.numOutputPartitions = st.buffers.length)
    (hwf : ∀ b ∈ st.buffers, b.numActiveRows = b.active.length) :
    (st.buffers ≠ [] →
      ∃ st' ws, st.spill = some (st.memUsed, st', ws) ∧
        st'.memUsed = 0 ∧
        st'.buffers = st.buffers.map emptied ∧
        writesRows ws = bufsRows st.buffers) ∧
    (st.buffers = [] → st.spill = some (0, st, [])) := by
  constructor
  · intro hne
    obtain ⟨st', ws, hsome, h1, h2, -, h4⟩ := spill_spec st hN hne hwf
    exact ⟨st', ws, hsome, h2, h1, h4⟩
  · intro hemp
    unfold RepState.spill
    rw [if_pos (by simp [hemp])]

/-- C6 amended witness: one buffered row, then spill. -/
theorem spill_zeroes_accounting_witness :
    ((⟨[⟨[9], 1, 2⟩], 1, 42⟩ : RepState Nat).buffers ≠ [] →
      ∃ st' ws, (⟨[⟨[9], 1, 2⟩], 1, 42⟩ : RepState Nat).spill
          = some ((⟨[⟨[9], 1, 2⟩], 1, 42⟩ : RepState Nat).memUsed, st', ws) ∧
        st'.memUsed = 0 ∧
        st'.buffers = (⟨[⟨[9], 1, 2⟩], 1, 42⟩ : RepState Nat).buffers.map emptied ∧
        writesRows ws = bufsRows (⟨[⟨[9], 1, 2⟩], 1, 42⟩ : RepState Nat).buffers) ∧
    ((⟨[⟨[9], 1, 2⟩], 1, 42⟩ : RepState Nat).buffers = [] →
      (⟨[⟨[9], 1, 2⟩], 1, 42⟩ : RepState Nat).spill
        = some (0, ⟨[⟨[9], 1, 2⟩], 1, 42⟩, [])) :=
  spill_zeroes_accounting (⟨[⟨[9], 1, 2⟩], 1, 42⟩ : RepState Nat) (by decide)
    (by decide)

/-- C7: `flush_to_rss` on an empty buffer (row count zero) performs zero sink
writes and leaves the buffer unchanged; on a non-empty buffer it performs
exactly one sink write carrying all currently buffered rows as one batch, and
afterwards the row count is zero and the builder set is empty. -/
theorem flush_to_rss_claim (buf : PartitionBuffer α) (pid : Nat)
    (h : buf.numActiveRows = buf.active.length) :
    (buf.numActiveRows = 0 → buf.flush_to_rss pid = (buf, [])) ∧
    (buf.numActiveRows ≠ 0 →
      buf.flush_to_rss pid
        = (⟨[], 0, buf.rssBatchSize⟩, [(pid, buf.active)]) ∧
      buf.active ≠ []) := by
  constructor
  · intro h0
    unfold PartitionBuffer.flush_to_rss
    rw [if_pos h0]
  · intro h0
    constructor
    · unfold PartitionBuffer.flush_to_rss
      rw [if_neg h0]
    · intro hnil
      rw [hnil] at h
      simp at h
      exact h0 h

/-- C7 witness: an empty and a two-row buffer. -/
theorem flush_to_rss_claim_witness :
    ((⟨[], 0, 4⟩ : PartitionBuffer Nat).numActiveRows = 0 →
      (⟨[], 0, 4⟩ : PartitionBuffer Nat).flush_to_rss 3 = (⟨[], 0, 4⟩, [])) ∧
    ((⟨[7, 8], 2, 4⟩ : PartitionBuffer Nat).numActiveRows ≠ 0 →
      (⟨[7, 8], 2, 4⟩ : PartitionBuffer Nat).flush_to_rss 3
          = (⟨[], 0, 4⟩, [(3, [7, 8])]) ∧
        (⟨[7, 8], 2, 4⟩ : PartitionBuffer Nat).active ≠ []) :=
  ⟨(flush_to_rss_claim (⟨[], 0, 4⟩ : PartitionBuffer Nat) 3 (by decide)).1,
   (flush_to_rss_claim (⟨[7, 8], 2, 4⟩ : PartitionBuffer Nat) 3 (by decide)).2⟩

/-- C8 counterexample: at configured batch size 2 the threshold is
`2 / ⌊log₂ 3⌋ = 2 / 1 = 2`, which is not strictly smaller than the nominal
batch size although the nominal size is at least 2. -/
theorem rss_batch_size_at_two_not_smaller :
    PartitionBuffer.new Nat 2
      = some { active := [], numActiveRows := 0, rssBatchSize := 2 } ∧
    ¬((2 : Nat) < 2) := by
  refine ⟨?_, by decide⟩
  simp [PartitionBuffer.new, Nat.log2]

/-- C8 amended: for every configured nominal batch size `b ≥ 1` the flush
threshold equals `b / ⌊log₂(b+1)⌋` (integer division by the floor of the
base-2 logarithm, the exact value of the `f64` computation of line 242), and
it is strictly smaller than the nominal size whenever `b ≥ 3`; at `b = 1` or
`b = 2` it equals the nominal size. -/
theorem rss_batch_size_formula (α : Type*) (b : Nat) (hb : 1 ≤ b) :
    ∃ buf : PartitionBuffer α, PartitionBuffer.new α b = some buf ∧
      buf.rssBatchSize = b / Nat.log2 (b + 1) ∧
      (3 ≤ b → buf.rssBatchSize < b) ∧
      (b ≤ 2 → buf.rssBatchSize = b) := by
  have hd : 0 < Nat.log2 (b + 1) := by
    rw [Nat.log2_eq_log_two]
    exact Nat.log_pos (by omega) (by omega)
  refine ⟨⟨[], 0, b / Nat.log2 (b + 1)⟩, ?_, rfl, ?_, ?_⟩
  · unfold PartitionBuffer.new
    rw [if_neg (by omega)]
  · intro h3
    have hd2 : 2 ≤ Nat.log2 (b + 1) := by
      rw [Nat.log2_eq_log_two]
      exact (Nat.pow_le_iff_le_log (by omega) (by omega)).mp (by omega)
    exact Nat.div_lt_self (by omega) (by omega)
  · intro h2
    interval_cases b
    · simp [Nat.log2]
    · simp [Nat.log2]

/-- C8 amended witness: batch sizes 2 and 8. -/
theorem rss_batch_size_formula_witness :
    (∃ buf : PartitionBuffer Nat, PartitionBuffer.new Nat 2 = some buf ∧
      buf.rssBatchSize = 2 / Nat.log2 3 ∧
      (3 ≤ 2 → buf.rssBatchSize < 2) ∧ (2 ≤ 2 → buf.rssBatchSize = 2)) ∧
    (∃ buf : PartitionBuffer Nat, PartitionBuffer.new Nat 8 = some buf ∧
      buf.rssBatchSize = 8 / Nat.log2 9 ∧
      (3 ≤ 8 → buf.rssBatchSize < 8) ∧ (8 ≤ 2 → buf.rssBatchSize = 8)) :=
  ⟨rss_batch_size_formula Nat 2 (by decide),
   rss_batch_size_formula Nat 8 (by decide)⟩

/-- C9: `append_batch` (the bulk path, which `insert_batch` takes for runs of
length `≥ rss_batch_size`) writes its batch directly to the sink as one
write, leaving every field of the buffer unchanged: bulk-appended rows are
never buffered and never count toward the flush threshold. -/
theorem append_batch_frame (buf : PartitionBuffer α) (r : Nat → α)
    (run : List Nat) (pid : Nat) (h : buf.rssBatchSize ≤ run.length) :
    buf.append_batch (run.map r) pid = (buf, [(pid, run.map r)]) ∧
    processRun r buf run pid = some (buf, [(pid, run.map r)]) := by
  refine ⟨rfl, ?_⟩
  unfold processRun
  rw [if_neg (by omega)]
  rfl

/-- C9 witness: a run of length 3 with threshold 2. -/
theorem append_batch_frame_witness :
    (⟨[5], 1, 2⟩ : PartitionBuffer Nat).append_batch ([0, 1, 2].map (· + 10)) 4
        = (⟨[5], 1, 2⟩, [(4, [0, 1, 2].map (· + 10))]) ∧
    processRun (· + 10) (⟨[5], 1, 2⟩ : PartitionBuffer Nat) [0, 1, 2] 4
        = some (⟨[5], 1, 2⟩, [(4, [0, 1, 2].map (· + 10))]) :=
  append_batch_frame ⟨[5], 1, 2⟩ (· + 10) [0, 1, 2] 4 (by decide)

/-- C10: with threshold `≥ 1` the `append_rows` loop terminates on every
input; constructing a `PartitionBuffer` requires a nominal batch size `≥ 1`
(at 0 the threshold computation divides by zero and construction panics),
and every constructed buffer has threshold `≥ 1`; a (hypothetical) threshold
of 0 would make the loop run forever on non-empty input — it returns `none`
for every amount of fuel. -/
theorem append_rows_termination {α : Type*} :
    (∀ (buf : PartitionBuffer α) (r : Nat → α) (inds : List Nat) (pid : Nat),
      1 ≤ buf.rssBatchSize → (buf.append_rows r inds pid).isSome) ∧
    PartitionBuffer.new α 0 = none ∧
    (∀ b : Nat, 1 ≤ b → ∃ buf : PartitionBuffer α,
      PartitionBuffer.new α b = some buf ∧ 1 ≤ buf.rssBatchSize) ∧
    (∀ (buf : PartitionBuffer α) (r : Nat → α) (pid : Nat) (x : Nat)
        (xs : List Nat) (fuel : Nat) (ws : List (Nat × List α)),
      buf.rssBatchSize = 0 →
      appendRowsGo r pid fuel buf (x :: xs) ws = none) := by
  refine ⟨?_, ?_, ?_, ?_⟩
  · intro buf r inds pid hrss
    exact appendRowsGo_total r pid (inds.length + 2) buf inds [] hrss (le_refl _)
  · unfold PartitionBuffer.new
    rw [if_pos (by simp [Nat.log2])]
  · intro b hb
    have hd : 0 < Nat.log2 (b + 1) := by
      rw [Nat.log2_eq_log_two]
      exact Nat.log_pos (by omega) (by omega)
    have hdle : Nat.log2 (b + 1) ≤ b := by
      have h2 : b + 1 < 2 ^ (b + 1) := Nat.lt_two_pow _
      have h3 : Nat.log2 (b + 1) < b + 1 := (Nat.log2_lt (by omega)).mpr h2
      omega
    refine ⟨⟨[], 0, b / Nat.log2 (b + 1)⟩, ?_, (Nat.one_le_div_iff hd).mpr hdle⟩
    unfold PartitionBuffer.new
    rw [if_neg (by omega)]
  · intro buf r pid x xs fuel ws h0
    exact appendRowsGo_rss_zero r pid fuel buf ws h0 x xs

/-- C10 witness: threshold 2 terminates on a three-row input; batch size 0
panics at construction; threshold 0 diverges on `[1]` with fuel 5. -/
theorem append_rows_termination_witness :
    (PartitionBuffer.append_rows (⟨[], 0, 2⟩ : PartitionBuffer Nat)
        (fun i => i) [1, 2, 3] 0).isSome ∧
    PartitionBuffer.new Nat 0 = none ∧
    (∃ buf : PartitionBuffer Nat, PartitionBuffer.new Nat 3 = some buf ∧
      1 ≤ buf.rssBatchSize) ∧
    appendRowsGo (fun i => i) 0 5 (⟨[], 0, 0⟩ : PartitionBuffer Nat) [1] []
      = none :=
  ⟨(append_rows_termination).1 ⟨[], 0, 2⟩ (fun i => i) [1, 2, 3] 0 (by decide),
   (append_rows_termination).2.1,
   (append_rows_termination).2.2.1 3 (by decide),
   (append_rows_termination).2.2.2 ⟨[], 0, 0⟩ (fun i => i) 0 1 [] 5 [] rfl⟩

end RssBucket
